import Mathlib

/-!
Verification of the adaptive quad/octree mesh `SimPEG/Mesh/PointerTree.py`.

The Python source is shallowly embedded below.  Machine integers are modelled
as `ℤ`/`ℕ` (Python ints are arbitrary precision), numpy float arrays as
`List ℚ`, Python's `set` as a duplicate-free `List ℤ` with set-style insert,
and `assert` failures / raised exceptions as `Option.none`.  Python's `>>` on
ints is floor division by a power of two and `& (2^k - 1)` is `% 2^k`
(nonnegative remainder); on `ℤ` these are `/` (`Int.ediv`) and `%`
(`Int.emod`), which agree with Python's floor conventions.
-/

namespace PointerTree

/-! ### ZCurve: the Morton (Z-order) codec -/

namespace ZCurve

/-- Python `bitrange(x, width, start, end)`: extract a bit range as an integer,
`x >> (width-end) & ((2**(end-start))-1)`. -/
def bitrange (x : ℤ) (width start stop : ℕ) : ℤ :=
  (x / 2 ^ (width - stop)) % 2 ^ (stop - start)

/-- The accumulator loop of `ZCurve.index` after the in-place `p.reverse()`:
iteration `i` ORs bit `bits - i/d - 1 .. bits - i/d` of `p[d - i%d - 1]`
shifted left by `i` into `idx`. -/
def indexAux (dimension bits : ℕ) (pr : List ℤ) : ℕ → ℕ
  | 0 => 0
  | i + 1 =>
    indexAux dimension bits pr i |||
      ((bitrange (pr.getD (dimension - i % dimension - 1) 0) bits
          (bits - i / dimension - 1) (bits - i / dimension)).toNat <<< i)

/-- Python `ZCurve.index(p)`: interleave the bits of the coordinates `p`
(the Python method first reverses its argument in place; `Tree._index`
passes a copy). -/
def index (dimension bits : ℕ) (p : List ℤ) : ℕ :=
  indexAux dimension bits p.reverse (bits * dimension)

/-- The accumulator loop of `ZCurve.point`: starting from `p = [0]*dimension`,
iteration `i` ORs `bitrange(idx, iwidth, i, i+1) << (iwidth-i-1)/dimension`
into `p[i % dimension]`. -/
def pointAux (dimension bits : ℕ) (idx : ℤ) : ℕ → List ℕ
  | 0 => List.replicate dimension 0
  | i + 1 =>
    let prev := pointAux dimension bits idx i
    let b := (bitrange idx (bits * dimension) i (i + 1)).toNat <<<
      ((bits * dimension - i - 1) / dimension)
    prev.set (i % dimension)
      (prev.getD (i % dimension) 0 ||| b)

/-- Python `ZCurve.point(idx)`: de-interleave `idx` into `dimension` coordinates
(the final `p.reverse()` included). -/
def point (dimension bits : ℕ) (idx : ℤ) : List ℤ :=
  ((pointAux dimension bits idx (bits * dimension)).map (Int.ofNat)).reverse

end ZCurve

/-! ### The Tree state -/

/-- The persistent state of a `Tree`: the spacings `h`, the maximum level,
and the set of live cell indices (`_treeInds`, a Python `set`, kept here as a
duplicate-free list in insertion order). -/
structure Tree where
  h : List (List ℚ)
  levels : ℕ
  treeInds : List ℤ

namespace Tree

/-- Python `self.dim = len(self.h)`. -/
def dim (t : Tree) : ℕ := t.h.length

/-- Python `int(np.ceil(np.sqrt(n)))` (exact for the integer inputs used):
the least `k` with `n ≤ k*k`. -/
def ceilSqrt (n : ℕ) : ℕ :=
  ((List.range (n + 1)).find? (fun k => n ≤ k * k)).getD n

/-- Python `self._levelBits = int(np.ceil(np.sqrt(levels)))+1`. -/
def levelBits (t : Tree) : ℕ := ceilSqrt t.levels + 1

/-- Python `self.nC = len(self._treeInds)`. -/
def nC (t : Tree) : ℕ := t.treeInds.length

/-- The value packed by `Tree._index` (before its asserts): the Morton index
of the coordinates shifted left by `_levelBits`, plus the level.  The Python
expression is `(x << self._levelBits) + pointer[-1]`. -/
def indexRaw (t : Tree) (pointer : List ℤ) : ℤ :=
  ((ZCurve.index t.dim 20 pointer.dropLast : ℕ) : ℤ) * 2 ^ t.levelBits +
    pointer.getLastD 0

/-- Python `Tree._index(pointer)` with its asserts (`len(pointer) is self.dim+1`,
`pointer[-1] <= self.levels`); an assert failure raises, i.e. `none`. -/
def index (t : Tree) (pointer : List ℤ) : Option ℤ :=
  if pointer.length = t.dim + 1 ∧ pointer.getLastD 0 ≤ (t.levels : ℤ) then
    some (t.indexRaw pointer)
  else none

/-- Python `Tree._pointer(index)`: low `_levelBits` bits are the level, the rest is
de-interleaved into the coordinates. -/
def pointer (t : Tree) (index : ℤ) : List ℤ :=
  let n := index % 2 ^ t.levelBits
  let p := ZCurve.point t.dim 20 (index / 2 ^ t.levelBits)
  p ++ [n]

/-- Membership test `v in self` for a pointer `v` (`Tree.__contains__`):
`self._index(v) in self._treeInds`.  The asserts of `_index` cannot fire at
any live call site (`_getNextCell` only tests candidates whose length is
`dim+1` and whose level is at most `levels`). -/
def containsP (t : Tree) (v : List ℤ) : Option Bool :=
  (t.index v).map (· ∈ t.treeInds)

/-- Python `set.add`: insert if absent (order of insertion retained). -/
def addInd (l : List ℤ) (i : ℤ) : List ℤ :=
  if i ∈ l then l else l ++ [i]

/-- Python `Tree._levelWidth(level) = 2**(self.levels - level)`.  At every call site
`level ≤ self.levels`, so the exponent is nonnegative. -/
def levelWidth (t : Tree) (level : ℤ) : ℤ :=
  2 ^ ((t.levels : ℤ) - level).toNat

/-- Python `Tree._cellN(p)`: per axis, `h[ii][:p[ii]].sum()` (the physical
coordinate of the minimum corner).  Valid pointers have nonnegative
coordinates. -/
def cellN (t : Tree) (p : List ℤ) : List ℚ :=
  (List.zipWith (fun (hi : List ℚ) (pi : ℤ) => (hi.take pi.toNat).sum)
    t.h p.dropLast)

/-- Python `Tree._cellH(p)`: per axis, `h[ii][p[ii]:p[ii]+w].sum()` where
`w = self._levelWidth(p[-1])`. -/
def cellH (t : Tree) (p : List ℤ) : List ℚ :=
  let w := t.levelWidth (p.getLastD 0)
  (List.zipWith (fun (hi : List ℚ) (pi : ℤ) => ((hi.drop pi.toNat).take w.toNat).sum)
    t.h p.dropLast)

/-- Python `Tree._cellC(p) = (np.array(self._cellH(p))/2.0 + self._cellN(p)).tolist()`. -/
def cellC (t : Tree) (p : List ℤ) : List ℚ :=
  List.zipWith (fun hh nn => hh / 2 + nn) (t.cellH p) (t.cellN p)

/-- The child offsets appended by `_refineCell`: the first four are
`[0,0,0][:dim]`-style prefixes, the last four are appended only when
`dim == 3`. -/
def refineOffsets (t : Tree) (hw : ℤ) : List (List ℤ) :=
  ([[0, 0, 0], [hw, 0, 0], [0, hw, 0], [hw, hw, 0]].map (·.take t.dim)) ++
    (if t.dim = 3 then [[0, 0, hw], [hw, 0, hw], [0, hw, hw], [hw, hw, hw]] else [])

/-- Python `Tree._refineCell(pointer)`.  Returns the mutated tree and the list of
added child indices; `none` models a raised `AssertionError` (cell not live,
or a child pointer failing `_index`'s asserts — in particular refining a cell
already at the finest level, where the children's level exceeds `levels`). -/
def refineCell (t : Tree) (p : List ℤ) : Option (Tree × List ℤ) := do
  let ind ← t.index p
  if ind ∈ t.treeInds then
    let hw := t.levelWidth (p.getLastD 0) / 2
    let nL := p.getLastD 0 + 1
    let (inds, added) ← (t.refineOffsets hw).foldlM
      (fun (acc : List ℤ × List ℤ) off => do
        let i ← t.index (List.zipWith (· + ·) p.dropLast off ++ [nL])
        pure (addInd acc.1 i, acc.2 ++ [i]))
      (t.treeInds, ([] : List ℤ))
    pure ({ t with treeInds := inds.erase ind }, added)
  else none

/-- The first pass of `Tree.refine`: the `for cell in cells` loop, splitting
each cell whose predicate value exceeds its level and collecting the children
in `recurse`. -/
def refinePass (t : Tree) (function : List ℚ → ℚ) (cells : List ℤ) :
    Option (Tree × List ℤ) :=
  cells.foldlM
    (fun (acc : Tree × List ℤ) cell =>
      let p := acc.1.pointer cell
      if function (acc.1.cellC p) > (p.getLastD 0 : ℚ) then
        (acc.1.refineCell p).map (fun r => (r.1, acc.2 ++ r.2))
      else pure acc)
    (t, ([] : List ℤ))

/-- Python `Tree.refine(function, recursive, cells)` (with a fuel bound on the
recursion depth; the Python recursion terminates because levels are bounded).
The default candidate list is `sorted(self._treeInds)`.  The recursive call's
return value is discarded: the outer `recurse` list is returned. -/
def refine (t : Tree) (fuel : ℕ) (function : List ℚ → ℚ) (recursive : Bool)
    (cells : Option (List ℤ)) : Option (Tree × List ℤ) :=
  match fuel with
  | 0 => none
  | fuel + 1 => do
    let cs := cells.getD (List.insertionSort (· ≤ ·) t.treeInds)
    let (t', recurse) ← t.refinePass function cs
    if recursive ∧ recurse ≠ [] then
      let (t'', _) ← t'.refine fuel function true (some recurse)
      pure (t'', recurse)
    else
      pure (t', recurse)

/-- Python `Tree._parentPointer(pointer)`: round each coordinate down to a multiple
of `_levelWidth(level-1)` and decrement the level. -/
def parentPointer (t : Tree) (p : List ℤ) : List ℤ :=
  let md := t.levelWidth (p.getLastD 0 - 1)
  p.dropLast.map (fun x => x - x % md) ++ [p.getLastD 0 - 1]

/-- Python `Tree._isInsideMesh(pointer)`: every coordinate is in `[0, 2**levels)`. -/
def isInsideMesh (t : Tree) (p : List ℤ) : Bool :=
  p.dropLast.all (fun x => 0 ≤ x ∧ x < 2 ^ t.levels)

/-- Python `Tree._onSameLevel(i0, i1)` for a pointer and an index. -/
def onSameLevel (t : Tree) (p : List ℤ) (i1 : ℤ) : Bool :=
  p.getLastD 0 = (t.pointer i1).getLastD 0

end Tree

/-- The return value of `Tree._getNextCell`: `None`, an `int` cell index, or
a (possibly nested) list of such results. -/
inductive NextCell where
  | none : NextCell
  | ind : ℤ → NextCell
  | list : List NextCell → NextCell

namespace NextCell

/-- Flatten a `list` result whose elements are all plain indices. -/
def intsOfList : NextCell → Option (List ℤ)
  | .list l => l.mapM (fun r => match r with | .ind i => some i | _ => Option.none)
  | _ => Option.none

end NextCell

namespace Tree

/-- The per-direction child-anchor offsets of `_getNextCell` (each of length
`dim+1`, the final `1` bumping the level of the numpy pointer addition).
Dimensions other than 2 and 3 leave `children` unbound in the source. -/
def nextChildren (t : Tree) (hw : ℤ) (direction : ℕ) : List (List ℤ) :=
  if t.dim = 2 then
    if direction = 0 then [[0, 0, 1], [0, hw, 1]]
    else [[0, 0, 1], [hw, 0, 1]]
  else if t.dim = 3 then
    if direction = 0 then [[0, 0, 0, 1], [0, hw, 0, 1], [0, 0, hw, 1], [0, hw, hw, 1]]
    else if direction = 1 then [[0, 0, 0, 1], [hw, 0, 0, 1], [0, 0, hw, 1], [hw, 0, hw, 1]]
    else [[0, 0, 0, 1], [hw, 0, 0, 1], [0, hw, 0, 1], [hw, hw, 0, 1]]
  else []

/-- Python `Tree._getNextCell(ind, direction, positive)` (on a pointer argument).
`fuel` bounds the recursion depth; `none` means the fuel ran out (the Python
recursion terminates on the meshes produced by refinement). -/
def getNextCell (t : Tree) : ℕ → List ℤ → ℕ → Bool → Option NextCell
  | 0, _, _, _ => Option.none
  | fuel + 1, p, direction, positive => do
    let step : ℤ := (if positive then 1 else -1) * t.levelWidth (p.getLastD 0)
    let nextCell := p.enum.map
      (fun x => if x.1 = direction then x.2 + step else x.2)
    if ¬ t.isInsideMesh nextCell then pure NextCell.none
    else do
      -- it might be the same size as me?
      let sameLive ← t.containsP nextCell
      if sameLive then pure (NextCell.ind (t.indexRaw nextCell))
      else do
        -- it might be smaller than me? (if I am not the smallest)
        let finer : Option NextCell ←
          if nextCell.getLastD 0 + 1 ≤ (t.levels : ℤ) then do
            let nc1 := nextCell.dropLast ++ [nextCell.getLastD 0 + 1]
            let nc2 := if ¬ positive then
                nc1.enum.map
                  (fun x => if x.1 = direction then x.2 - step / 2 else x.2)
              else nc1
            let finerLive ← t.containsP nc2
            if finerLive then do
              let hw := t.levelWidth (p.getLastD 0) / 2
              let base := p.enum.map
                (fun x => if x.1 = direction then
                    x.2 + (if positive then step / 2 else 0) else x.2)
              let results ← (t.nextChildren hw direction).mapM
                (fun child => t.getNextCell fuel
                  (List.zipWith (· + ·) base child) direction positive)
              pure (some (NextCell.list results))
            else pure Option.none
          else pure Option.none
        match finer with
        | some r => pure r
        | Option.none =>
          -- it might be bigger than me?
          t.getNextCell fuel (t.parentPointer p) direction positive

end Tree

/-! ### Numbering -/

/-- The mutable state of `Tree.number`: per-axis face-center and area lists,
hanging-face lists, face counters (initialised to `-1`), the volume list and
the cell-to-faces dictionary `c2f`. -/
structure NumState where
  facesX : List (List ℚ) := []
  facesY : List (List ℚ) := []
  facesZ : List (List ℚ) := []
  areaX : List ℚ := []
  areaY : List ℚ := []
  areaZ : List ℚ := []
  hangingFacesX : List ℤ := []
  hangingFacesY : List ℤ := []
  hangingFacesZ : List ℤ := []
  faceXCount : ℤ := -1
  faceYCount : ℤ := -1
  faceZCount : ℤ := -1
  vol : List ℚ := []
  c2f : List (ℤ × List (List ℤ)) := []

namespace NumState

/-- Read the per-axis face counter selected by `DIR`. -/
def count (ns : NumState) (DIR : ℕ) : ℤ :=
  if DIR = 0 then ns.faceXCount else if DIR = 1 then ns.faceYCount else ns.faceZCount

/-- Read the per-axis face-center list selected by `DIR`. -/
def faces (ns : NumState) (DIR : ℕ) : List (List ℚ) :=
  if DIR = 0 then ns.facesX else if DIR = 1 then ns.facesY else ns.facesZ

/-- Read the per-axis hanging-face list selected by `DIR`. -/
def hangingOf (ns : NumState) (DIR : ℕ) : List ℤ :=
  if DIR = 0 then ns.hangingFacesX else if DIR = 1 then ns.hangingFacesY
  else ns.hangingFacesZ

/-- Python `gc2f(ind)`: ensure `ind` has an entry (a list of `2*dim` empty lists). -/
def gc2f (dim : ℕ) (m : List (ℤ × List (List ℤ))) (ind : ℤ) :
    List (ℤ × List (List ℤ)) :=
  if m.any (fun e => e.1 = ind) then m
  else m ++ [(ind, List.replicate (2 * dim) [])]

/-- Python `gc2f(ind)[slot] += vs`. -/
def c2fApp (dim : ℕ) (m : List (ℤ × List (List ℤ))) (ind : ℤ) (slot : ℕ)
    (vs : List ℤ) : List (ℤ × List (List ℤ)) :=
  (gc2f dim m ind).map
    (fun e => if e.1 = ind then (e.1, e.2.set slot (e.2.getD slot [] ++ vs)) else e)

/-- Look up `c2f[ind]` (every processed cell is present after `number`). -/
def c2fGet (dim : ℕ) (m : List (ℤ × List (List ℤ))) (ind : ℤ) : List (List ℤ) :=
  ((m.find? (fun e => e.1 = ind)).map (·.2)).getD (List.replicate (2 * dim) [])

end NumState

namespace Tree

/-- Python `addXFace` / `addYFace` / `addZFace`, selected by `DIR`: append the face
area and the face center for cell `p` on the `positive` or negative side of
the axis, and return the incremented counter. -/
def addFace (t : Tree) (DIR : ℕ) (ns : NumState) (count : ℤ) (p : List ℤ)
    (positive : Bool) : NumState × ℤ :=
  let n := t.cellN p
  let w := t.cellH p
  let n0 := n.getD 0 0; let n1 := n.getD 1 0; let n2 := n.getD 2 0
  let w0 := w.getD 0 0; let w1 := w.getD 1 0; let w2 := w.getD 2 0
  if DIR = 0 then
    ({ ns with
        areaX := ns.areaX ++ [if t.dim = 2 then w1 else w1 * w2]
        facesX := ns.facesX ++
          [if t.dim = 2 then [n0 + (if positive then w0 else 0), n1 + w1 / 2]
           else [n0 + (if positive then w0 else 0), n1 + w1 / 2, n2 + w2 / 2]] },
      count + 1)
  else if DIR = 1 then
    ({ ns with
        areaY := ns.areaY ++ [if t.dim = 2 then w0 else w0 * w2]
        facesY := ns.facesY ++
          [if t.dim = 2 then [n0 + w0 / 2, n1 + (if positive then w1 else 0)]
           else [n0 + w0 / 2, n1 + (if positive then w1 else 0), n2 + w2 / 2]] },
      count + 1)
  else
    ({ ns with
        areaZ := ns.areaZ ++ [w0 * w1]
        facesZ := ns.facesZ ++
          [[n0 + w0 / 2, n1 + w1 / 2, n2 + (if positive then w2 else 0)]] },
      count + 1)

/-- Store the new counter value for axis `DIR` and append to its
hanging-face list. -/
def putCount (ns : NumState) (DIR : ℕ) (c : ℤ) : NumState :=
  if DIR = 0 then { ns with faceXCount := c }
  else if DIR = 1 then { ns with faceYCount := c }
  else { ns with faceZCount := c }

/-- Append ids to the hanging-face list of axis `DIR`. -/
def addHanging (ns : NumState) (DIR : ℕ) (ids : List ℤ) : NumState :=
  if DIR = 0 then { ns with hangingFacesX := ns.hangingFacesX ++ ids }
  else if DIR = 1 then { ns with hangingFacesY := ns.hangingFacesY ++ ids }
  else { ns with hangingFacesZ := ns.hangingFacesZ ++ ids }

/-- The negative-side block of `processCell`: if the negative neighbor query
returns `None` (domain boundary) allocate a face and record it in
`c2f[ind][fM]`. -/
def processCellNeg (t : Tree) (fuel : ℕ) (ind : ℤ) (DIR : ℕ) (ns : NumState) :
    Option NumState := do
  let fM := 2 * DIR
  let p := t.pointer ind
  let negR ← t.getNextCell fuel p DIR false
  match negR with
  | .none =>
    let (ns1, c) := t.addFace DIR ns (ns.count DIR) p false
    pure (putCount { ns1 with c2f := NumState.c2fApp t.dim ns1.c2f ind fM [c] } DIR c)
  | _ => pure ns

/-- The positive-side block of `processCell` ("Add the next Xface"). -/
def processCellPos (t : Tree) (fuel : ℕ) (ind : ℤ) (DIR : ℕ) (ns : NumState) :
    Option NumState := do
  let fM := 2 * DIR
  let fP := 2 * DIR + 1
  let p := t.pointer ind
  let nextCell ← t.getNextCell fuel p DIR true
  match nextCell with
  | .none =>
    -- on the boundary
    let (ns1, c) := t.addFace DIR ns (ns.count DIR) p true
    pure (putCount { ns1 with c2f := NumState.c2fApp t.dim ns1.c2f ind fP [c] } DIR c)
  | .ind n =>
    if t.onSameLevel p n then
      -- same sized cell
      let (ns1, c) := t.addFace DIR ns (ns.count DIR) p true
      let m1 := NumState.c2fApp t.dim ns1.c2f ind fP [c]
      let m2 := NumState.c2fApp t.dim m1 n fM [c]
      pure (putCount { ns1 with c2f := m2 } DIR c)
    else
      -- the cell is bigger than me
      let (ns1, c) := t.addFace DIR ns (ns.count DIR) p true
      let m1 := NumState.c2fApp t.dim ns1.c2f ind fP [c]
      let m2 := NumState.c2fApp t.dim m1 n fM [c]
      pure (addHanging (putCount { ns1 with c2f := m2 } DIR c) DIR [c])
  | .list l =>
    -- the cell is smaller than me
    match l with
    | .ind n0 :: .ind n1 :: _ =>
      let p0 := t.pointer n0
      let p1 := t.pointer n1
      let (ns1, c1) := t.addFace DIR ns (ns.count DIR) p0 false
      let m1 := NumState.c2fApp t.dim ns1.c2f n0 fM [c1]
      let (ns2, c2) := t.addFace DIR { ns1 with c2f := m1 } c1 p1 false
      let m2 := NumState.c2fApp t.dim ns2.c2f n1 fM [c2]
      let m3 := NumState.c2fApp t.dim m2 ind fP [c2 - 1, c2]
      pure (addHanging (putCount { ns2 with c2f := m3 } DIR c2) DIR [c2 - 1, c2])
    | _ => Option.none  -- `self._pointer` rejects a non-int element

/-- Python `processCell(ind, faceCount, addFace, hangingFaces, DIR)`. -/
def processCell (t : Tree) (fuel : ℕ) (ind : ℤ) (DIR : ℕ) (ns : NumState) :
    Option NumState := do
  let ns1 ← t.processCellNeg fuel ind DIR ns
  t.processCellPos fuel ind DIR ns1

/-- The assembled output of `Tree.number()`. -/
structure NumberOut where
  sortedInds : List ℤ
  c2f : List (ℤ × List (List ℤ))
  area : List ℚ
  vol : List ℚ
  gridFx : List (List ℚ)
  gridFy : List (List ℚ)
  gridFz : List (List ℚ)
  hangingFacesX : List ℤ
  hangingFacesY : List ℤ
  hangingFacesZ : List ℤ
  nC : ℕ
  nFx : ℕ
  nFy : ℕ
  nFz : ℕ
  nF : ℕ

/-- The numbering fold of `Tree.number()` over a given cell order (the body
of `Tree.number`, parameterised by the `self._sortedInds` value it reads):
walk the cells, collect volumes and process the faces of every axis, then
materialise the dense outputs. -/
def numberOn (t : Tree) (fuel : ℕ) (inds : List ℤ) : Option NumberOut := do
  let ns ← inds.foldlM
    (fun (ns : NumState) ind => do
      let ns := { ns with vol := ns.vol ++ [(t.cellH (t.pointer ind)).prod] }
      let ns ← t.processCell fuel ind 0 ns
      let ns ← t.processCell fuel ind 1 ns
      if t.dim = 3 then t.processCell fuel ind 2 ns else pure ns)
    ({} : NumState)
  pure
    { sortedInds := inds
      c2f := ns.c2f
      area := ns.areaX ++ ns.areaY ++ (if t.dim = 3 then ns.areaZ else [])
      vol := ns.vol
      gridFx := ns.facesX
      gridFy := ns.facesY
      gridFz := ns.facesZ
      hangingFacesX := ns.hangingFacesX
      hangingFacesY := ns.hangingFacesY
      hangingFacesZ := ns.hangingFacesZ
      nC := inds.length
      nFx := ns.facesX.length
      nFy := ns.facesY.length
      nFz := ns.facesZ.length
      nF := ns.facesX.length + ns.facesY.length +
        (if t.dim = 3 then ns.facesZ.length else 0) }

/-- Python `Tree.number()` on the sorted live cell list. -/
def number (t : Tree) (fuel : ℕ) : Option NumberOut :=
  t.numberOn fuel (List.insertionSort (· ≤ ·) t.treeInds)

end Tree

/-! ### The divergence assembler -/

/-- Three-list zip, truncating at the shortest list (Python `zip`). -/
def zip3 : List α → List β → List γ → List (α × β × γ)
  | a :: as', b :: bs, c :: cs => (a, b, c) :: zip3 as' bs cs
  | _, _, _ => []

/-- Python `PM = [-1,1]*self.dim`, the plus/minus sign pattern. -/
def PM (dim : ℕ) : List ℤ := (List.replicate dim [(-1 : ℤ), 1]).flatten

/-- Python `offset = [0,0,self.nFx,self.nFx,self.nFx+self.nFy,self.nFx+self.nFy]`. -/
def offsetList (m : Tree.NumberOut) : List ℕ :=
  [0, 0, m.nFx, m.nFx, m.nFx + m.nFy, m.nFx + m.nFy]

/-- The COO triplets `(I, J, V)` contributed by the cell in row `ii`:
for each `(off, pm, face)` in `zip(offset, PM, faces)` and each face id
`f` in `face`, the triplet `(ii, off + f, pm)`. -/
def cellTriplets (dim : ℕ) (m : Tree.NumberOut) (ii : ℕ) (ind : ℤ) :
    List (ℕ × ℤ × ℤ) :=
  (zip3 (offsetList m) (PM dim) (NumState.c2fGet dim m.c2f ind)).flatMap
    (fun x => x.2.2.map (fun f => (ii, (x.1 : ℤ) + f, x.2.1)))

/-- The full triplet list of the `for ii, ind in enumerate(self._sortedInds)`
loop of `faceDiv`, starting at row `ii`. -/
def divTriplets (dim : ℕ) (m : Tree.NumberOut) : ℕ → List ℤ → List (ℕ × ℤ × ℤ)
  | _, [] => []
  | ii, ind :: rest => cellTriplets dim m ii ind ++ divTriplets dim m (ii + 1) rest

/-- Entry `(i, j)` of the raw incidence `D = sp.csr_matrix((V,(I,J)))`:
scipy sums duplicate entries. -/
def Dmat (dim : ℕ) (m : Tree.NumberOut) (i : ℕ) (j : ℤ) : ℤ :=
  ((divTriplets dim m 0 m.sortedInds).map
    (fun t => if t.1 = i ∧ t.2.1 = j then t.2.2 else 0)).sum

/-- A sparse matrix: a shape and a total entry function (column indices as
`ℤ`, matching the raw `off + f` column values of the COO triplets). -/
structure SpMat where
  rows : ℕ
  cols : ℕ
  entry : ℕ → ℤ → ℚ

/-- Row scaling `1.0/VOL`: entry `i` of the volume array. -/
def volAt (m : Tree.NumberOut) (i : ℕ) : ℚ := m.vol.getD i 0

/-- Column scaling `S`: entry `j` of the area array. -/
def areaAt (m : Tree.NumberOut) (j : ℤ) : ℚ :=
  if 0 ≤ j then m.area.getD j.toNat 0 else 0

/-- Python `self._faceDiv = Utils.sdiag(1.0/VOL)*D*Utils.sdiag(S)` with shape
`(self.nC, self.nF)`, built from the numbering output. -/
def faceDivOf (dim : ℕ) (m : Tree.NumberOut) : SpMat :=
  { rows := m.nC
    cols := m.nF
    entry := fun i j => (1 / volAt m i) * ((Dmat dim m i j : ℤ) : ℚ) * areaAt m j }

/-- Python `Tree.faceDiv` (running `number` first). -/
def Tree.faceDiv (t : Tree) (fuel : ℕ) : Option SpMat :=
  (t.number fuel).map (faceDivOf t.dim)

/-! ### Spec-side divergence (C3), written from the specification text -/

/-- Modelled from the spec: the sign pattern `(−1,+1,−1,+1,−1,+1)` of the
`2d` directions `(−x,+x,−y,+y[,−z,+z])`. -/
def specSign (dir : ℕ) : ℤ := [(-1 : ℤ), 1, -1, 1, -1, 1].getD dir 0

/-- Modelled from the spec: the axis offsets
`(0, 0, nFx, nFx, nFx+nFy, nFx+nFy)` into the global face numbering. -/
def specOffset (m : Tree.NumberOut) (dir : ℕ) : ℕ :=
  [0, 0, m.nFx, m.nFx, m.nFx + m.nFy, m.nFx + m.nFy].getD dir 0

/-- Modelled from the spec: the raw incidence has, for each row `i` (the
`i`-th cell in sorted index order) and each of the `2d` directions, an entry
of sign `specSign dir` at column `specOffset dir + f` for every face id `f`
in `c2f[cell][dir]`. -/
def specD (dim : ℕ) (m : Tree.NumberOut) (i : ℕ) (j : ℤ) : ℤ :=
  if i < m.sortedInds.length then
    ∑ dir ∈ Finset.range (2 * dim),
      specSign dir *
        ((NumState.c2fGet dim m.c2f (m.sortedInds.getD i 0)).getD dir []).countP
          (fun f => (specOffset m dir : ℤ) + f = j)
  else 0

/-- Modelled from the spec: `faceDiv = diag(1/vol) · D · diag(area)` of shape
`(nC, nF)` with `D` as described by the claim. -/
def specFaceDiv (dim : ℕ) (m : Tree.NumberOut) : SpMat :=
  { rows := m.nC
    cols := m.nF
    entry := fun i j => (1 / volAt m i) * ((specD dim m i j : ℤ) : ℚ) * areaAt m j }

/-! ### The constructor -/

/-- An entry of the `h_in` list passed to `Tree.__init__`: a number
(`int`/`long`/`float`, interpreted as `n` equal cells over the unit
interval) or a 1-D array.  Higher-dimensional numpy arrays (rejected by the
1-D assert) are outside this model. -/
inductive HIn where
  | num : ℤ → HIn
  | arr : List ℚ → HIn

/-- Python `Tree.__init__(h_in, levels)`: requires `len(h_in) > 1`, converts
numeric entries to `np.ones(n)/n`, and asserts every axis has length
`2**levels`.  A negative numeric entry makes `np.ones` raise.  The initial
cell set is `{0}` (the root) and the numbering starts dirty. -/
def Tree.init (h_in : List HIn) (levels : ℕ) : Option Tree :=
  if 1 < h_in.length then do
    let h ← h_in.mapM (fun hi =>
      match hi with
      | .num n =>
        if 0 ≤ n then
          let a := List.replicate n.toNat (1 / (n : ℚ))
          if a.length = 2 ^ levels then some a else none
        else none
      | .arr a => if a.length = 2 ^ levels then some a else none)
    pure { h := h, levels := levels, treeInds := [0] }
  else none

/-! ### Pointer regions (for the volume-partition invariant) -/

/-- Finite product of finite sets of coordinates, as a finite set of
coordinate lists. -/
def listProd : List (Finset ℤ) → Finset (List ℤ)
  | [] => {[]}
  | s :: rest => (s ×ˢ listProd rest).image (fun x => x.1 :: x.2)

/-- Entry `i` of a spacing array, `0` out of range. -/
def hval (hk : List ℚ) (i : ℤ) : ℚ := if 0 ≤ i then hk.getD i.toNat 0 else 0

/-- The product weight `∏ₖ h[k][q[k]]` of a finest-level multi-index. -/
def weightQ (h : List (List ℚ)) (q : List ℤ) : ℚ := (List.zipWith hval h q).prod

/-- A valid cell pointer: length `dim+1`, level in `[0, levels]`, every
coordinate in `[0, 2^levels)` and aligned to a multiple of the level
width. -/
def Tree.ValidPtr (t : Tree) (p : List ℤ) : Prop :=
  p.length = t.dim + 1 ∧ 0 ≤ p.getLastD 0 ∧ p.getLastD 0 ≤ (t.levels : ℤ) ∧
    ∀ x ∈ p.dropLast, 0 ≤ x ∧ x < 2 ^ t.levels ∧ t.levelWidth (p.getLastD 0) ∣ x

/-- The box of finest-level multi-indices covered by a cell pointer. -/
def Tree.region (t : Tree) (p : List ℤ) : Finset (List ℤ) :=
  listProd (p.dropLast.map
    (fun c => Finset.Ico c (c + t.levelWidth (p.getLastD 0))))

/-- The whole finest-level index grid `[0, 2^levels)^dim`. -/
def Tree.fullGrid (t : Tree) : Finset (List ℤ) :=
  listProd (t.h.map (fun _ => Finset.Ico 0 (2 ^ t.levels)))

/-- The structural invariant maintained by refinement: the live indices are
duplicate-free, decode to valid pointers, and their regions are pairwise
disjoint and cover the grid. -/
def Tree.Inv (t : Tree) : Prop :=
  t.treeInds.Nodup ∧
    (∀ ind ∈ t.treeInds, t.ValidPtr (t.pointer ind)) ∧
    (∀ i1 ∈ t.treeInds, ∀ i2 ∈ t.treeInds, i1 ≠ i2 →
      Disjoint (t.region (t.pointer i1)) (t.region (t.pointer i2))) ∧
    t.treeInds.toFinset.biUnion (fun ind => t.region (t.pointer ind)) = t.fullGrid

/-- Mesh states reachable from `Tree(h, levels)` by refinement calls. -/
inductive Tree.Reachable (h : List (List ℚ)) (levels : ℕ) : Tree → Prop where
  | init : Tree.Reachable h levels { h := h, levels := levels, treeInds := [0] }
  | stepCell (t t' : Tree) (p : List ℤ) (added : List ℤ) :
      Tree.Reachable h levels t → t.ValidPtr p →
      t.refineCell p = some (t', added) →
      Tree.Reachable h levels t'
  | stepRefine (t t' : Tree) (fuel : ℕ) (f : List ℚ → ℚ) (recursive : Bool)
      (cells : Option (List ℤ)) (lst : List ℤ) :
      Tree.Reachable h levels t →
      t.refine fuel f recursive cells = some (t', lst) →
      Tree.Reachable h levels t'

/-- Modelled from the spec: the set of indices of the `2^d` children of a
refined cell, with coordinates the parent's plus each element of the cross
product `{0, 2^(L-l-1)}^d` and level `l+1`. -/
def Tree.specChildSet (t : Tree) (p : List ℤ) : Finset ℤ :=
  (listProd (List.replicate t.dim
      ({0, 2 ^ ((t.levels : ℤ) - p.getLastD 0 - 1).toNat} : Finset ℤ))).image
    (fun off => t.indexRaw (List.zipWith (· + ·) p.dropLast off ++
      [p.getLastD 0 + 1]))

/-! ### The attribute-cache layer (`__dirty__` and lazily cached getters) -/

/-- Python `Tree.gridCC` recomputed from scratch: one row of cell centers per
sorted live index. -/
def Tree.gridCCRows (t : Tree) (inds : List ℤ) : List (List ℚ) :=
  inds.map (fun ind => t.cellC (t.pointer ind))

/-- A `Tree` object together with its attribute caches: the dirty bit and the
lazily created attributes (`None` models a deleted / never-set attribute). -/
structure CTree where
  core : Tree
  dirty : Bool
  aGridCC : Option (List (List ℚ)) := none
  aGridFx : Option (List (List ℚ)) := none
  aGridFy : Option (List (List ℚ)) := none
  aFaceDiv : Option SpMat := none
  aC2f : Option (List (ℤ × List (List ℤ))) := none
  aArea : Option (List ℚ) := none
  aVol : Option (List ℚ) := none
  aNFx : Option ℕ := none
  aNFy : Option ℕ := none
  aNC : Option ℕ := none
  aNF : Option ℕ := none

namespace CTree

/-- A freshly constructed object: `self.__dirty__ = True`, no caches. -/
def mk0 (t : Tree) : CTree := { core := t, dirty := true }

/-- Python `Tree._structureChange()`: a no-op when already dirty; otherwise
delete `_gridCC`, `_gridFx` and set the dirty bit (`deleteThese` also names
`'__sortedInds'`, but `self.__sortedInds = ...` inside the class body stores
the name-mangled attribute `_Tree__sortedInds`, so `hasattr(self,
'__sortedInds')` is false and that delete never fires).  The other cached
attributes (`_gridFy`, `_gridFz`, `_faceDiv`, `_c2f`, …) are NOT deleted. -/
def structureChange (c : CTree) : CTree :=
  if c.dirty then c
  else { c with aGridCC := none, aGridFx := none, dirty := true }

/-- Python `Tree._sortedInds` property.  The source reads `getattr(self,
'__sortedInds', None)` but writes the name-mangled `self.__sortedInds`
(= `_Tree__sortedInds`), so the read never sees the write and every access
recomputes the sorted list. -/
def sortedIndsGet (c : CTree) : List ℤ × CTree :=
  (List.insertionSort (· ≤ ·) c.core.treeInds, c)

/-- Python `Tree.number()`: return immediately unless dirty; otherwise walk
`self._sortedInds` and set all numbering attributes, clearing the dirty
bit.  (`force` is never passed in the source.) -/
def number (c : CTree) (fuel : ℕ) : Option CTree :=
  if ¬ c.dirty then some c
  else
    let (inds, c1) := c.sortedIndsGet
    (c1.core.numberOn fuel inds).map (fun m =>
      { c1 with
          aC2f := some m.c2f
          aArea := some m.area
          aVol := some m.vol
          aGridFx := some m.gridFx
          aGridFy := some m.gridFy
          aNFx := some m.nFx
          aNFy := some m.nFy
          aNC := some m.nC
          aNF := some m.nF
          dirty := false })

/-- Python `Tree.vol` property: `self.number(); return self._vol`. -/
def volGet (c : CTree) (fuel : ℕ) : Option (List ℚ × CTree) :=
  (c.number fuel).map (fun c1 => (c1.aVol.getD [], c1))

/-- Python `Tree.area` property: `self.number(); return self._area`. -/
def areaGet (c : CTree) (fuel : ℕ) : Option (List ℚ × CTree) :=
  (c.number fuel).map (fun c1 => (c1.aArea.getD [], c1))

/-- Python `Tree.gridFx` property: run `number` only when the `_gridFx`
attribute is missing, then return the attribute. -/
def gridFxGet (c : CTree) (fuel : ℕ) : Option (List (List ℚ) × CTree) :=
  match c.aGridFx with
  | some g => some (g, c)
  | none => (c.number fuel).map (fun c1 => (c1.aGridFx.getD [], c1))

/-- Python `Tree.gridFy` property: run `number` only when the `_gridFy`
attribute is missing, then return the attribute. -/
def gridFyGet (c : CTree) (fuel : ℕ) : Option (List (List ℚ) × CTree) :=
  match c.aGridFy with
  | some g => some (g, c)
  | none => (c.number fuel).map (fun c1 => (c1.aGridFy.getD [], c1))

/-- Python `Tree.gridCC` property: recompute from `self._sortedInds` only
when the `_gridCC` attribute is missing (no dirty-bit check). -/
def gridCCGet (c : CTree) : List (List ℚ) × CTree :=
  match c.aGridCC with
  | some g => (g, c)
  | none =>
    let (inds, c1) := c.sortedIndsGet
    let g := c1.core.gridCCRows inds
    (g, { c1 with aGridCC := some g })

/-- Python `Tree.faceDiv` property: when the `_faceDiv` attribute is missing,
run `number` and assemble the matrix from the (now set) numbering attributes;
otherwise return the cached matrix unconditionally. -/
def faceDivGet (c : CTree) (fuel : ℕ) : Option (SpMat × CTree) :=
  match c.aFaceDiv with
  | some mat => some (mat, c)
  | none =>
    (c.number fuel).map (fun c1 =>
      let (inds, c2) := c1.sortedIndsGet
      let m : Tree.NumberOut :=
        { sortedInds := inds
          c2f := c2.aC2f.getD []
          area := c2.aArea.getD []
          vol := c2.aVol.getD []
          gridFx := [], gridFy := [], gridFz := []
          hangingFacesX := [], hangingFacesY := [], hangingFacesZ := []
          nC := c2.aNC.getD 0
          nFx := c2.aNFx.getD 0
          nFy := c2.aNFy.getD 0
          nFz := 0
          nF := c2.aNF.getD 0 }
      let mat := faceDivOf c2.core.dim m
      (mat, { c2 with aFaceDiv := some mat }))

/-- Python `Tree._refineCell` at the object level: `self._structureChange()`
followed by the pure cell-set mutation. -/
def refineCell (c : CTree) (p : List ℤ) : Option (CTree × List ℤ) :=
  let c1 := c.structureChange
  (c1.core.refineCell p).map (fun r => ({ c1 with core := r.1 }, r.2))

end CTree

/-! ### Concrete meshes used by witnesses and counterexamples -/

/-- Spacing array `np.ones(4)/4` (from `Tree([4,4], levels=2)`). -/
def qh4 : List ℚ := [1/4, 1/4, 1/4, 1/4]

/-- Spacing array `np.ones(2)/2` (from `Tree([2,2], levels=1)`). -/
def qh2 : List ℚ := [1/2, 1/2]

/-- The 2-D mesh `Tree([4,4], levels=2)` as constructed. -/
def w2 : Tree := { h := [qh4, qh4], levels := 2, treeInds := [0] }

/-- Scenario S1: `w2` after `refine(lambda xc: 1)`. -/
def w2r : Tree := ((w2.refine 5 (fun _ => 1) true Option.none).map Prod.fst).getD w2

/-- The 3-D mesh `Tree([4,4,4], levels=2)` as constructed. -/
def w3 : Tree := { h := [qh4, qh4, qh4], levels := 2, treeInds := [0] }

/-- Python `w3` after `refine(lambda xc: 1)` (eight level-1 cells). -/
def w3r : Tree := ((w3.refine 5 (fun _ => 1) true Option.none).map Prod.fst).getD w3

/-- Python `w3r` after `_refineCell([2,0,0,1])`: the cell at the positive-x
side of the origin cell is refined, so `(0,0,0,1)` has four finer +x
neighbors. -/
def w3rr : Tree := ((w3r.refineCell [2, 0, 0, 1]).map Prod.fst).getD w3r

/-- The 2-D mesh `Tree([2,2], levels=1)` as constructed. -/
def w1 : Tree := { h := [qh2, qh2], levels := 1, treeInds := [0] }

/-- A default (empty) numbering output, used only as a `getD` fallback. -/
def emptyNumberOut : Tree.NumberOut :=
  { sortedInds := [], c2f := [], area := [], vol := [], gridFx := [],
    gridFy := [], gridFz := [], hangingFacesX := [], hangingFacesY := [],
    hangingFacesZ := [], nC := 0, nFx := 0, nFy := 0, nFz := 0, nF := 0 }

/-- The numbering output of the uniformly refined 2-D mesh (scenario S1). -/
def w2rm : Tree.NumberOut := (w2r.number 20).getD emptyNumberOut

/-- The numbering output of the 3-D mesh with one level-2 refinement. -/
def w3m : Tree.NumberOut := (w3rr.number 40).getD emptyNumberOut

/-- The result of `refine` with the constant predicate 2 on `w2` (all cells
driven to the finest level). -/
def w2refine2 : Tree × List ℤ :=
  (w2.refine 5 (fun _ => 2) true Option.none).getD (w2, [])

/-- Modelled from the spec: an axis argument accepted by the constructor —
a nonnegative count equal to `2^levels`, or an array of length `2^levels`. -/
def axisOk (levels : ℕ) : HIn → Prop
  | .num n => 0 ≤ n ∧ n.toNat = 2 ^ levels
  | .arr a => a.length = 2 ^ levels

/-- A fresh `Tree([2,2], 1)` object with its caches. -/
def c5a : CTree := CTree.mk0 w1

/-- The object after one access to `gridFy`: the numbering has run, all
numbering attributes are cached and the dirty bit is clear. -/
def c5b : CTree := ((c5a.gridFyGet 10).map Prod.snd).getD c5a

/-- The object after the mutation `_refineCell([0,0,0])` on `c5b`. -/
def c5c : CTree := ((c5b.refineCell [0, 0, 0]).map Prod.fst).getD c5b

/-- The child list returned by that mutation. -/
def c5add : List ℤ := ((c5b.refineCell [0, 0, 0]).map Prod.snd).getD []

/-! ## Morton codec round trip -/

theorem bitrange_nonneg (x : ℤ) (w s e : ℕ) : 0 ≤ ZCurve.bitrange x w s e :=
  Int.emod_nonneg _ (by positivity)

theorem bitrange_single_toNat (x : ℤ) (hx : 0 ≤ x) (w s : ℕ) :
    (ZCurve.bitrange x w s (s + 1)).toNat = (x.toNat.testBit (w - s - 1)).toNat := by
  obtain ⟨n, rfl⟩ : ∃ n : ℕ, x = n := ⟨x.toNat, (Int.toNat_of_nonneg hx).symm⟩
  unfold ZCurve.bitrange
  rw [Nat.toNat_testBit]
  have h1 : w - (s + 1) = w - s - 1 := by omega
  have h2 : s + 1 - s = 1 := by omega
  rw [h1, h2]
  have h3 : ((2 : ℤ) ^ (w - s - 1)) = ((2 ^ (w - s - 1) : ℕ) : ℤ) := by push_cast; ring
  have h4 : ((2 : ℤ) ^ 1) = ((2 ^ 1 : ℕ) : ℤ) := by norm_num
  rw [h3, h4, ← Int.ofNat_ediv, ← Int.ofNat_emod, Int.toNat_natCast, pow_one,
    Int.toNat_natCast]

theorem bitrange_single_le_one (x : ℤ) (hx : 0 ≤ x) (w s : ℕ) :
    (ZCurve.bitrange x w s (s + 1)).toNat ≤ 1 := by
  rw [bitrange_single_toNat x hx]
  cases x.toNat.testBit (w - s - 1) <;> simp

theorem getD_nonneg_of_forall (l : List ℤ) (hl : ∀ x ∈ l, 0 ≤ x) (i : ℕ) :
    0 ≤ l.getD i 0 := by
  by_cases h : i < l.length
  · rw [List.getD_eq_getElem l 0 h]; exact hl _ (List.getElem_mem h)
  · rw [List.getD_eq_default l 0 (by omega)]

theorem indexAux_testBit (d bits : ℕ) (pr : List ℤ) (hpr : ∀ x ∈ pr, 0 ≤ x)
    (hd : 0 < d) :
    ∀ m, m ≤ bits * d → ∀ j : ℕ,
      ((ZCurve.indexAux d bits pr m).testBit j = true ↔
        (j < m ∧ (pr.getD (d - j % d - 1) 0).toNat.testBit (j / d) = true)) := by
  intro m
  induction m with
  | zero => intro _ j; simp [ZCurve.indexAux]
  | succ m ih =>
    intro hm j
    have hx0 : 0 ≤ pr.getD (d - m % d - 1) 0 := getD_nonneg_of_forall pr hpr _
    have hmd : m / d < bits := (Nat.div_lt_iff_lt_mul hd).mpr (by omega)
    have hsub : bits - (bits - m / d - 1) - 1 = m / d := by
      obtain ⟨q, hq⟩ : ∃ q, m / d = q := ⟨_, rfl⟩
      rw [hq] at hmd ⊢; omega
    have hstop : bits - m / d = (bits - m / d - 1) + 1 := by
      obtain ⟨q, hq⟩ : ∃ q, m / d = q := ⟨_, rfl⟩
      rw [hq] at hmd ⊢; omega
    have hbv : (ZCurve.bitrange (pr.getD (d - m % d - 1) 0) bits
        (bits - m / d - 1) (bits - m / d)).toNat =
        ((pr.getD (d - m % d - 1) 0).toNat.testBit (m / d)).toNat := by
      have h0 := bitrange_single_toNat (pr.getD (d - m % d - 1) 0) hx0 bits
        (bits - m / d - 1)
      rw [← hstop] at h0
      rw [hsub] at h0
      exact h0
    rw [show ZCurve.indexAux d bits pr (m + 1) =
        ZCurve.indexAux d bits pr m |||
          ((ZCurve.bitrange (pr.getD (d - m % d - 1) 0) bits
            (bits - m / d - 1) (bits - m / d)).toNat <<< m) from rfl]
    rw [Nat.testBit_or, Bool.or_eq_true, ih (by omega) j]
    constructor
    · rintro (⟨hj, hb⟩ | hsh)
      · exact ⟨by omega, hb⟩
      · rw [Nat.testBit_shiftLeft, Bool.and_eq_true, decide_eq_true_iff, hbv] at hsh
        obtain ⟨hmj, hbit⟩ := hsh
        have hjm : j = m := by
          by_contra hne
          have hlt : ((pr.getD (d - m % d - 1) 0).toNat.testBit (m / d)).toNat <
              2 ^ (j - m) := by
            calc ((pr.getD (d - m % d - 1) 0).toNat.testBit (m / d)).toNat ≤ 1 :=
              Bool.toNat_le _
            _ < 2 ^ (j - m) := Nat.one_lt_two_pow (by omega)
          rw [Nat.testBit_lt_two_pow hlt] at hbit
          exact Bool.false_ne_true hbit
        subst hjm
        refine ⟨by omega, ?_⟩
        rw [Nat.sub_self] at hbit
        cases hb : (pr.getD (d - j % d - 1) 0).toNat.testBit (j / d)
        · rw [hb] at hbit; exact absurd hbit (by decide)
        · rfl
    · rintro ⟨hj, hbit⟩
      rcases Nat.lt_or_ge j m with hlt | hge
      · exact Or.inl ⟨hlt, hbit⟩
      · have hjm : j = m := by omega
        subst hjm
        right
        rw [Nat.testBit_shiftLeft, Bool.and_eq_true, decide_eq_true_iff, hbv,
          Nat.sub_self, hbit]
        exact ⟨le_refl _, by decide⟩

theorem revBit_decomp (bits d m : ℕ) (hd : 0 < d) (hm : m < bits * d) :
    bits * d - m - 1 = d * (bits - m / d - 1) + (d - 1 - m % d) ∧
      (bits * d - m - 1) / d = bits - m / d - 1 ∧
      (bits * d - m - 1) % d = d - 1 - m % d := by
  have hdm := Nat.div_add_mod m d
  have hrd : m % d < d := Nat.mod_lt _ hd
  have hqb : m / d < bits := (Nat.div_lt_iff_lt_mul hd).mpr hm
  obtain ⟨q, hq⟩ : ∃ q, m / d = q := ⟨_, rfl⟩
  obtain ⟨r, hr⟩ : ∃ r, m % d = r := ⟨_, rfl⟩
  rw [hq, hr] at hdm ⊢
  rw [hq] at hqb
  rw [hr] at hrd
  have hC : d * (bits - q - 1) + (d * q + d) = d * bits := by
    rw [← Nat.mul_succ, ← Nat.mul_add]
    exact congrArg (d * ·) (by omega)
  obtain ⟨A, hA⟩ : ∃ A, d * q = A := ⟨_, rfl⟩
  obtain ⟨B, hB⟩ : ∃ B, d * bits = B := ⟨_, rfl⟩
  obtain ⟨C, hCC⟩ : ∃ C, d * (bits - q - 1) = C := ⟨_, rfl⟩
  rw [hA, hB, hCC] at hC
  rw [hA] at hdm
  have hmain : bits * d - m - 1 = C + (d - 1 - r) := by
    rw [Nat.mul_comm bits d, hB]; omega
  refine ⟨by rw [hmain, hCC], ?_, ?_⟩
  · rw [hmain, ← hCC, add_comm, Nat.add_mul_div_left _ _ hd,
      Nat.div_eq_of_lt (by omega), zero_add]
  · rw [hmain, ← hCC, add_comm, Nat.add_mul_mod_self_left,
      Nat.mod_eq_of_lt (by omega)]

theorem pointAux_length (d bits : ℕ) (idx : ℤ) (m : ℕ) :
    (ZCurve.pointAux d bits idx m).length = d := by
  induction m with
  | zero => simp [ZCurve.pointAux]
  | succ m ih =>
    rw [show ZCurve.pointAux d bits idx (m + 1) =
      (ZCurve.pointAux d bits idx m).set (m % d)
        ((ZCurve.pointAux d bits idx m).getD (m % d) 0 |||
          ((ZCurve.bitrange idx (bits * d) m (m + 1)).toNat <<<
            ((bits * d - m - 1) / d))) from rfl]
    rw [List.length_set, ih]

theorem pointAux_getD_testBit (d bits : ℕ) (hd : 0 < d) (idx : ℤ)
    (hidx : 0 ≤ idx) :
    ∀ m, m ≤ bits * d → ∀ k, k < d → ∀ t : ℕ,
      (((ZCurve.pointAux d bits idx m).getD k 0).testBit t = true ↔
        (bits * d - m ≤ t * d + (d - 1 - k) ∧ t * d + (d - 1 - k) < bits * d ∧
          idx.toNat.testBit (t * d + (d - 1 - k)) = true)) := by
  intro m
  induction m with
  | zero =>
    intro _ k hk t
    have : (List.replicate d (0 : ℕ)).getD k 0 = 0 := by
      rw [List.getD_eq_getElem _ 0 (by simpa using hk)]
      simp
    rw [show ZCurve.pointAux d bits idx 0 = List.replicate d 0 from rfl, this,
      Nat.zero_testBit]
    constructor
    · intro h; exact absurd h (by decide)
    · rintro ⟨h1, h2, _⟩; omega
  | succ m ih =>
    intro hm k hk t
    have hmlt : m < bits * d := by omega
    obtain ⟨hdecomp, hpos, hmod⟩ := revBit_decomp bits d m hd hmlt
    have hbv : (ZCurve.bitrange idx (bits * d) m (m + 1)).toNat =
        (idx.toNat.testBit (bits * d - m - 1)).toNat :=
      bitrange_single_toNat idx hidx (bits * d) m
    have hlen : (ZCurve.pointAux d bits idx m).length = d := pointAux_length d bits idx m
    have hE : ∀ t' k', k' < d → (t' * d + (d - 1 - k')) % d = d - 1 - k' := by
      intro t' k' hk'
      rw [add_comm, Nat.add_mul_mod_self_right, Nat.mod_eq_of_lt (by omega)]
    rw [show ZCurve.pointAux d bits idx (m + 1) =
      (ZCurve.pointAux d bits idx m).set (m % d)
        ((ZCurve.pointAux d bits idx m).getD (m % d) 0 |||
          ((ZCurve.bitrange idx (bits * d) m (m + 1)).toNat <<<
            ((bits * d - m - 1) / d))) from rfl]
    by_cases hkm : k = m % d
    · -- the updated slot
      subst hkm
      have hset : ((ZCurve.pointAux d bits idx m).set (m % d)
          ((ZCurve.pointAux d bits idx m).getD (m % d) 0 |||
            ((ZCurve.bitrange idx (bits * d) m (m + 1)).toNat <<<
              ((bits * d - m - 1) / d)))).getD (m % d) 0 =
          (ZCurve.pointAux d bits idx m).getD (m % d) 0 |||
            ((ZCurve.bitrange idx (bits * d) m (m + 1)).toNat <<<
              ((bits * d - m - 1) / d)) := by
        have hmd : m % d < (ZCurve.pointAux d bits idx m).length := by
          rw [hlen]; exact Nat.mod_lt _ hd
        simp [List.getD, List.getElem?_set_self, hmd]
      rw [hset, Nat.testBit_or, Bool.or_eq_true, ih (by omega) (m % d) hk t]
      have hnew : ((ZCurve.bitrange idx (bits * d) m (m + 1)).toNat <<<
            ((bits * d - m - 1) / d)).testBit t = true ↔
          (t = bits - m / d - 1 ∧ idx.toNat.testBit (bits * d - m - 1) = true) := by
        rw [hbv, Nat.testBit_shiftLeft, Bool.and_eq_true, decide_eq_true_iff, hpos]
        constructor
        · rintro ⟨hle, hbit⟩
          have ht : t = bits - m / d - 1 := by
            by_contra hne
            have hlt : (idx.toNat.testBit (bits * d - m - 1)).toNat <
                2 ^ (t - (bits - m / d - 1)) :=
              lt_of_le_of_lt (Bool.toNat_le _) (Nat.one_lt_two_pow (by omega))
            rw [Nat.testBit_lt_two_pow hlt] at hbit
            exact Bool.false_ne_true hbit
          subst ht
          rw [Nat.sub_self] at hbit
          cases hb : idx.toNat.testBit (bits * d - m - 1)
          · rw [hb] at hbit; exact absurd hbit (by decide)
          · exact ⟨rfl, rfl⟩
        · rintro ⟨ht, hbit⟩
          subst ht
          rw [Nat.sub_self, hbit]
          exact ⟨le_refl _, by decide⟩
      rw [hnew]
      have hEuniq : t * d + (d - 1 - m % d) = bits * d - m - 1 ↔
          t = bits - m / d - 1 := by
        constructor
        · intro h
          rw [hdecomp] at h
          have : t * d = d * (bits - m / d - 1) := by omega
          rw [Nat.mul_comm] at this
          exact Nat.eq_of_mul_eq_mul_left hd this
        · intro h
          subst h
          rw [hdecomp, Nat.mul_comm]
      constructor
      · rintro (⟨h1, h2, h3⟩ | ⟨ht, hbit⟩)
        · exact ⟨by omega, h2, h3⟩
        · have := hEuniq.mpr ht
          exact ⟨by omega, by omega, by rwa [this]⟩
      · rintro ⟨h1, h2, h3⟩
        rcases Nat.lt_or_ge (t * d + (d - 1 - m % d)) (bits * d - m) with hlt | hge
        · right
          have heq : t * d + (d - 1 - m % d) = bits * d - m - 1 := by omega
          exact ⟨hEuniq.mp heq, by rwa [heq] at h3⟩
        · exact Or.inl ⟨hge, h2, h3⟩
    · -- an untouched slot
      have hset : ((ZCurve.pointAux d bits idx m).set (m % d)
          ((ZCurve.pointAux d bits idx m).getD (m % d) 0 |||
            ((ZCurve.bitrange idx (bits * d) m (m + 1)).toNat <<<
              ((bits * d - m - 1) / d)))).getD k 0 =
          (ZCurve.pointAux d bits idx m).getD k 0 := by
        simp [List.getD, List.getElem?_set_ne (Ne.symm hkm)]
      rw [hset, ih (by omega) k hk t]
      have hne : t * d + (d - 1 - k) ≠ bits * d - m - 1 := by
        intro h
        have h1 : (t * d + (d - 1 - k)) % d = d - 1 - k := hE t k hk
        have h2 : (bits * d - m - 1) % d = d - 1 - m % d := hmod
        rw [h] at h1
        have hrd : m % d < d := Nat.mod_lt _ hd
        omega
      constructor
      · rintro ⟨h1, h2, h3⟩
        exact ⟨by omega, h2, h3⟩
      · rintro ⟨h1, h2, h3⟩
        refine ⟨?_, h2, h3⟩
        rcases Nat.lt_or_ge (t * d + (d - 1 - k)) (bits * d - m) with hlt | hge
        · exact absurd (by omega : t * d + (d - 1 - k) = bits * d - m - 1) hne
        · exact hge

theorem reverse_getD (l : List ℤ) (k : ℕ) (h : k < l.length) (dflt : ℤ) :
    l.reverse.getD k dflt = l.getD (l.length - 1 - k) dflt := by
  rw [List.getD_eq_getElem _ dflt (by simpa using h), List.getElem_reverse,
    List.getD_eq_getElem _ dflt (by omega)]

theorem getD_map_ofNat (l : List ℕ) (j : ℕ) :
    (l.map Int.ofNat).getD j 0 = Int.ofNat (l.getD j 0) := by
  by_cases hj : j < l.length
  · rw [List.getD_eq_getElem _ 0 (by simpa using hj), List.getElem_map,
      List.getD_eq_getElem _ 0 hj]
  · rw [List.getD_eq_default _ 0 (by simpa using hj),
      List.getD_eq_default _ 0 (by omega)]
    rfl

theorem point_index_roundtrip (d bits : ℕ) (hd : 0 < d) (p : List ℤ)
    (hlen : p.length = d) (hp : ∀ x ∈ p, 0 ≤ x ∧ x < 2 ^ bits) :
    ZCurve.point d bits ((ZCurve.index d bits p : ℕ) : ℤ) = p := by
  have hrev : ∀ x ∈ p.reverse, 0 ≤ x := by
    intro x hx
    exact (hp x (List.mem_reverse.mp hx)).1
  have hidx0 : (0 : ℤ) ≤ ((ZCurve.index d bits p : ℕ) : ℤ) := Int.natCast_nonneg _
  have hauxlen := pointAux_length d bits ((ZCurve.index d bits p : ℕ) : ℤ) (bits * d)
  have hgoal : ∀ i < d,
      (ZCurve.pointAux d bits ((ZCurve.index d bits p : ℕ) : ℤ)
        (bits * d)).getD (d - 1 - i) 0 = (p.getD i 0).toNat := by
    intro i hid
    apply Nat.eq_of_testBit_eq
    intro t
    have hxval : 0 ≤ p.getD i 0 := getD_nonneg_of_forall p (fun x hx => (hp x hx).1) i
    have hxmem : p.getD i 0 ∈ p := by
      rw [List.getD_eq_getElem p 0 (by omega)]
      exact List.getElem_mem _
    have hxlt : (p.getD i 0).toNat < 2 ^ bits := by
      have h2 := (hp _ hxmem).2
      have h3 : ((2 : ℤ) ^ bits) = ((2 ^ bits : ℕ) : ℤ) := by push_cast; ring
      rw [h3] at h2
      omega
    have hk : d - 1 - i < d := by omega
    have hchar := pointAux_getD_testBit d bits hd _ hidx0 (bits * d) (le_refl _)
      (d - 1 - i) hk t
    have hE0 : d - 1 - (d - 1 - i) = i := by omega
    rw [hE0] at hchar
    have hEd : (t * d + i) % d = i := by
      rw [add_comm, Nat.add_mul_mod_self_right, Nat.mod_eq_of_lt hid]
    have hEq : (t * d + i) / d = t := by
      rw [add_comm, Nat.add_mul_div_right _ _ hd, Nat.div_eq_of_lt hid, zero_add]
    have hichar := indexAux_testBit d bits p.reverse hrev hd (bits * d) (le_refl _)
      (t * d + i)
    have hrevD : p.reverse.getD (d - (t * d + i) % d - 1) 0 = p.getD i 0 := by
      rw [hEd, reverse_getD p (d - i - 1) (by omega) 0, hlen]
      congr 1
      omega
    by_cases htb : t < bits
    · have hEiw : t * d + i < bits * d := by
        calc t * d + i < t * d + d := by omega
        _ = (t + 1) * d := by ring
        _ ≤ bits * d := Nat.mul_le_mul_right d (by omega)
      cases hbit : (p.getD i 0).toNat.testBit t
      · rw [← Bool.not_eq_true]
        intro hcon
        obtain ⟨_, _, hidxbit⟩ := hchar.mp hcon
        rw [Int.toNat_natCast] at hidxbit
        obtain ⟨_, hprbit⟩ :=
          (hichar.trans (by rw [hrevD, hEq])).mp hidxbit
        rw [hbit] at hprbit
        exact absurd hprbit (by decide)
      · apply hchar.mpr
        refine ⟨by omega, hEiw, ?_⟩
        rw [Int.toNat_natCast]
        apply (hichar.trans (by rw [hrevD, hEq])).mpr
        exact ⟨hEiw, hbit⟩
    · have hbf : (p.getD i 0).toNat.testBit t = false := by
        apply Nat.testBit_lt_two_pow
        calc (p.getD i 0).toNat < 2 ^ bits := hxlt
        _ ≤ 2 ^ t := Nat.pow_le_pow_right (by omega) (by omega)
      rw [hbf, ← Bool.not_eq_true]
      intro hcon
      obtain ⟨_, hlt, _⟩ := hchar.mp hcon
      have : t * d + i ≥ bits * d := by
        calc bits * d ≤ t * d := Nat.mul_le_mul_right d (by omega)
        _ ≤ t * d + i := by omega
      omega
  apply List.ext_getElem
  · simp [ZCurve.point, hauxlen, hlen]
  intro i hi1 hi2
  have hid : i < d := by rwa [hlen] at hi2
  have hmap : i < ((ZCurve.pointAux d bits ((ZCurve.index d bits p : ℕ) : ℤ)
      (bits * d)).map Int.ofNat).length := by
    simpa [hauxlen] using hid
  calc (ZCurve.point d bits ((ZCurve.index d bits p : ℕ) : ℤ))[i] =
      (ZCurve.point d bits ((ZCurve.index d bits p : ℕ) : ℤ)).getD i 0 :=
        (List.getD_eq_getElem _ 0 hi1).symm
    _ = ((ZCurve.pointAux d bits ((ZCurve.index d bits p : ℕ) : ℤ)
        (bits * d)).map Int.ofNat).getD
        (((ZCurve.pointAux d bits ((ZCurve.index d bits p : ℕ) : ℤ)
          (bits * d)).map Int.ofNat).length - 1 - i) 0 := by
        rw [show ZCurve.point d bits ((ZCurve.index d bits p : ℕ) : ℤ) =
          ((ZCurve.pointAux d bits ((ZCurve.index d bits p : ℕ) : ℤ)
            (bits * d)).map (Int.ofNat)).reverse from rfl]
        exact reverse_getD _ i hmap 0
    _ = Int.ofNat ((ZCurve.pointAux d bits ((ZCurve.index d bits p : ℕ) : ℤ)
        (bits * d)).getD (d - 1 - i) 0) := by
        rw [getD_map_ofNat]
        congr 2
        simp [hauxlen]
    _ = Int.ofNat (p.getD i 0).toNat := by rw [hgoal i hid]
    _ = p.getD i 0 := Int.toNat_of_nonneg
        (getD_nonneg_of_forall p (fun x hx => (hp x hx).1) i)
    _ = p[i] := List.getD_eq_getElem p 0 hi2

theorem two_mul_succ_le_two_pow (n : ℕ) : 2 * n + 1 ≤ 2 ^ (n + 1) := by
  induction n with
  | zero => simp
  | succ n ih =>
    have : (2 : ℕ) ^ (n + 1) ≥ 2 := Nat.one_lt_two_pow (by omega)
    calc 2 * (n + 1) + 1 = (2 * n + 1) + 2 := by ring
    _ ≤ 2 ^ (n + 1) + 2 ^ (n + 1) := by omega
    _ = 2 ^ (n + 2) := by ring

theorem sq_lt_two_pow (n : ℕ) : n ^ 2 < 2 ^ (n + 1) := by
  induction n with
  | zero => simp
  | succ n ih =>
    have h2 := two_mul_succ_le_two_pow n
    calc (n + 1) ^ 2 = n ^ 2 + (2 * n + 1) := by ring
    _ < 2 ^ (n + 1) + 2 ^ (n + 1) := by omega
    _ = 2 ^ (n + 2) := by ring

theorem ceilSqrt_spec (n : ℕ) : n ≤ Tree.ceilSqrt n * Tree.ceilSqrt n := by
  unfold Tree.ceilSqrt
  have hex : ∃ x ∈ List.range (n + 1), (fun k => decide (n ≤ k * k)) x = true := by
    refine ⟨n, List.mem_range.mpr (by omega), ?_⟩
    simp only [decide_eq_true_eq]
    nlinarith
  have hsome : ((List.range (n + 1)).find? (fun k => n ≤ k * k)).isSome :=
    List.find?_isSome.mpr hex
  obtain ⟨r, hr⟩ := Option.isSome_iff_exists.mp hsome
  rw [hr]
  have := List.find?_some hr
  simpa using this

theorem levels_lt_two_pow_levelBits (t : Tree) : t.levels < 2 ^ t.levelBits := by
  unfold Tree.levelBits
  calc t.levels ≤ Tree.ceilSqrt t.levels * Tree.ceilSqrt t.levels :=
    ceilSqrt_spec t.levels
  _ = (Tree.ceilSqrt t.levels) ^ 2 := by ring
  _ < 2 ^ (Tree.ceilSqrt t.levels + 1) := sq_lt_two_pow _

theorem levels_lt_two_pow_levelBits_int (t : Tree) :
    (t.levels : ℤ) < 2 ^ t.levelBits := by
  have := levels_lt_two_pow_levelBits t
  exact_mod_cast this

theorem pointer_indexRaw (t : Tree) (p : List ℤ)
    (hd : 0 < t.dim) (hlen : p.length = t.dim + 1)
    (hcoords : ∀ x ∈ p.dropLast, 0 ≤ x ∧ x < 2 ^ 20)
    (hlev0 : 0 ≤ p.getLastD 0) (hlev : p.getLastD 0 ≤ (t.levels : ℤ)) :
    t.pointer (t.indexRaw p) = p := by
  have hB : p.getLastD 0 < 2 ^ t.levelBits :=
    lt_of_le_of_lt hlev (levels_lt_two_pow_levelBits_int t)
  have hBpos : (0 : ℤ) < 2 ^ t.levelBits := by positivity
  unfold Tree.pointer Tree.indexRaw
  have hmod : (((ZCurve.index t.dim 20 p.dropLast : ℕ) : ℤ) * 2 ^ t.levelBits +
      p.getLastD 0) % 2 ^ t.levelBits = p.getLastD 0 := by
    rw [mul_comm, add_comm, Int.add_mul_emod_self_left, Int.emod_eq_of_lt hlev0 hB]
  have hdiv : (((ZCurve.index t.dim 20 p.dropLast : ℕ) : ℤ) * 2 ^ t.levelBits +
      p.getLastD 0) / 2 ^ t.levelBits =
      ((ZCurve.index t.dim 20 p.dropLast : ℕ) : ℤ) := by
    rw [mul_comm, add_comm, Int.add_mul_ediv_left _ _
        (by omega : (2:ℤ) ^ t.levelBits ≠ 0),
      Int.ediv_eq_zero_of_lt hlev0 hB, zero_add]
  rw [hmod, hdiv]
  have hdlen : p.dropLast.length = t.dim := by
    rw [List.length_dropLast, hlen]
    omega
  rw [point_index_roundtrip t.dim 20 hd p.dropLast hdlen hcoords]
  have hne : p ≠ [] := by
    intro he
    rw [he] at hlen
    simp at hlen
  have : p.getLastD 0 = p.getLast hne := by
    rw [List.getLastD_eq_getLast?, List.getLast?_eq_getLast _ hne]
    rfl
  rw [this, List.dropLast_append_getLast hne]

/-- C1: for every valid cell pointer `p = (i1,...,id, l)` with `0 ≤ l ≤ L`,
each coordinate in `[0, 2^20)` and aligned as required, decoding the encoded
index returns the same pointer: `Tree._pointer(Tree._index(p)) = p`, where
the index packs the level in the low `_levelBits` bits and the Morton
interleaving of the coordinates in the upper bits. -/
theorem claim1_pointer_index_roundtrip (t : Tree) (p : List ℤ)
    (hd : 0 < t.dim) (hlen : p.length = t.dim + 1)
    (hcoords : ∀ x ∈ p.dropLast, 0 ≤ x ∧ x < 2 ^ 20)
    (halign : ∀ x ∈ p.dropLast, t.levelWidth (p.getLastD 0) ∣ x)
    (hlev0 : 0 ≤ p.getLastD 0) (hlev : p.getLastD 0 ≤ (t.levels : ℤ)) :
    t.index p = some (t.indexRaw p) ∧ t.pointer (t.indexRaw p) = p := by
  clear halign
  constructor
  · unfold Tree.index
    rw [if_pos ⟨hlen, hlev⟩]
  · exact pointer_indexRaw t p hd hlen hcoords hlev0 hlev

/-- Witness for C1 at the pointer `(3, 5, 2)` of `Tree([4,4], levels=2)`
(the Morton pair of spec scenario S4). -/
theorem claim1_witness :
    w2.index [3, 5, 2] = some (w2.indexRaw [3, 5, 2]) ∧
      w2.pointer (w2.indexRaw [3, 5, 2]) = [3, 5, 2] :=
  claim1_pointer_index_roundtrip w2 [3, 5, 2] (by decide) (by decide)
    (by decide) (by decide) (by decide) (by decide)

/-! ## Refining a cell: normal forms -/

theorem mem_listProd_nil (q : List ℤ) : q ∈ listProd [] ↔ q = [] := by
  simp [listProd]

theorem mem_listProd_cons (s : Finset ℤ) (rest : List (Finset ℤ)) (q : List ℤ) :
    q ∈ listProd (s :: rest) ↔
      ∃ a tl, a ∈ s ∧ tl ∈ listProd rest ∧ q = a :: tl := by
  simp only [listProd, Finset.mem_image, Finset.mem_product, Prod.exists]
  constructor
  · rintro ⟨a, tl, ⟨ha, htl⟩, rfl⟩
    exact ⟨a, tl, ha, htl, rfl⟩
  · rintro ⟨a, tl, ha, htl, rfl⟩
    exact ⟨a, tl, ⟨ha, htl⟩, rfl⟩

theorem listProd_length (ss : List (Finset ℤ)) (q : List ℤ)
    (hq : q ∈ listProd ss) : q.length = ss.length := by
  induction ss generalizing q with
  | nil => rw [mem_listProd_nil] at hq; subst hq; rfl
  | cons s rest ih =>
    rw [mem_listProd_cons] at hq
    obtain ⟨a, tl, _, htl, rfl⟩ := hq
    simp [ih tl htl]

theorem listProd_card (ss : List (Finset ℤ)) :
    (listProd ss).card = (ss.map Finset.card).prod := by
  induction ss with
  | nil => simp [listProd]
  | cons s rest ih =>
    rw [show listProd (s :: rest) =
      (s ×ˢ listProd rest).image (fun x => x.1 :: x.2) from rfl]
    rw [Finset.card_image_of_injective _ (fun a b hab => by
      have h2 : a.1 = b.1 ∧ a.2 = b.2 := by simpa using hab
      exact Prod.ext h2.1 h2.2)]
    simp [Finset.card_product, ih]

theorem getLastD_concat (xs : List ℤ) (a dflt : ℤ) :
    (xs ++ [a]).getLastD dflt = a := by
  rw [List.getLastD_eq_getLast?, List.getLast?_concat]
  rfl

theorem refineFold_eq (t : Tree) (p : List ℤ) (nL : ℤ)
    (hnL : nL ≤ (t.levels : ℤ)) :
    ∀ (offs : List (List ℤ)),
      (∀ off ∈ offs,
        (List.zipWith (· + ·) p.dropLast off ++ [nL]).length = t.dim + 1) →
      ∀ acc : List ℤ × List ℤ,
        offs.foldlM
          (fun (acc : List ℤ × List ℤ) off => do
            let i ← t.index (List.zipWith (· + ·) p.dropLast off ++ [nL])
            pure (Tree.addInd acc.1 i, acc.2 ++ [i]))
          acc =
        some
          (offs.foldl (fun l off =>
              Tree.addInd l (t.indexRaw
                (List.zipWith (· + ·) p.dropLast off ++ [nL]))) acc.1,
            acc.2 ++ offs.map (fun off =>
              t.indexRaw (List.zipWith (· + ·) p.dropLast off ++ [nL]))) := by
  intro offs
  induction offs with
  | nil => intro _ acc; simp [List.foldlM]
  | cons off rest ih =>
    intro hwf acc
    have hidx : t.index (List.zipWith (· + ·) p.dropLast off ++ [nL]) =
        some (t.indexRaw (List.zipWith (· + ·) p.dropLast off ++ [nL])) := by
      unfold Tree.index
      rw [if_pos ⟨hwf off (List.mem_cons_self off rest), by
        rw [getLastD_concat]; exact hnL⟩]
    have hstep : (do
        let i ← t.index (List.zipWith (· + ·) p.dropLast off ++ [nL])
        pure (Tree.addInd acc.1 i, acc.2 ++ [i]) : Option (List ℤ × List ℤ)) =
        some (Tree.addInd acc.1
            (t.indexRaw (List.zipWith (· + ·) p.dropLast off ++ [nL])),
          acc.2 ++ [t.indexRaw (List.zipWith (· + ·) p.dropLast off ++ [nL])]) := by
      rw [hidx]
      rfl
    rw [List.foldlM_cons, hstep]
    have hrest : ∀ o ∈ rest,
        (List.zipWith (· + ·) p.dropLast o ++ [nL]).length = t.dim + 1 :=
      fun o ho => hwf o (List.mem_cons_of_mem off ho)
    rw [show (some (Tree.addInd acc.1
          (t.indexRaw (List.zipWith (· + ·) p.dropLast off ++ [nL])),
        acc.2 ++ [t.indexRaw (List.zipWith (· + ·) p.dropLast off ++ [nL])]) >>=
          fun x => List.foldlM
            (fun (acc : List ℤ × List ℤ) off => do
              let i ← t.index (List.zipWith (· + ·) p.dropLast off ++ [nL])
              pure (Tree.addInd acc.1 i, acc.2 ++ [i])) x rest) =
        List.foldlM
          (fun (acc : List ℤ × List ℤ) off => do
            let i ← t.index (List.zipWith (· + ·) p.dropLast off ++ [nL])
            pure (Tree.addInd acc.1 i, acc.2 ++ [i]))
          (Tree.addInd acc.1
              (t.indexRaw (List.zipWith (· + ·) p.dropLast off ++ [nL])),
            acc.2 ++ [t.indexRaw (List.zipWith (· + ·) p.dropLast off ++ [nL])])
          rest from rfl]
    rw [ih hrest]
    simp

theorem opt_some_bind {α β : Type} (a : α) (f : α → Option β) :
    ((some a : Option α) >>= f) = f a := rfl

theorem opt_none_bind {α β : Type} (f : α → Option β) :
    ((Option.none : Option α) >>= f) = Option.none := rfl

theorem refineOffsets_length (t : Tree) (hw : ℤ)
    (hdim : t.dim = 2 ∨ t.dim = 3) :
    ∀ off ∈ t.refineOffsets hw, off.length = t.dim := by
  rcases hdim with h | h <;>
    · intro off hoff
      simp [Tree.refineOffsets, h] at hoff
      rcases hoff with rfl | rfl | rfl | rfl | rfl | rfl | rfl | rfl <;> simp [h]

theorem refineCell_child_length (t : Tree) (p : List ℤ) (nL : ℤ)
    (hlen : p.length = t.dim + 1) (hdim : t.dim = 2 ∨ t.dim = 3) (hw : ℤ) :
    ∀ off ∈ t.refineOffsets hw,
      (List.zipWith (· + ·) p.dropLast off ++ [nL]).length = t.dim + 1 := by
  intro off hoff
  rw [List.length_append, List.length_zipWith, List.length_dropLast, hlen,
    refineOffsets_length t hw hdim off hoff]
  simp

theorem refineCell_eq_of_success (t : Tree) (p : List ℤ)
    (hdim : t.dim = 2 ∨ t.dim = 3) (hlen : p.length = t.dim + 1)
    (hlevlt : p.getLastD 0 < (t.levels : ℤ))
    (hmem : t.indexRaw p ∈ t.treeInds) :
    t.refineCell p =
      some ({ t with treeInds :=
          ((t.refineOffsets (t.levelWidth (p.getLastD 0) / 2)).foldl
            (fun l off => Tree.addInd l (t.indexRaw
              (List.zipWith (· + ·) p.dropLast off ++ [p.getLastD 0 + 1])))
            t.treeInds).erase (t.indexRaw p) },
        (t.refineOffsets (t.levelWidth (p.getLastD 0) / 2)).map
          (fun off => t.indexRaw (List.zipWith (· + ·) p.dropLast off ++
            [p.getLastD 0 + 1]))) := by
  have hidx : t.index p = some (t.indexRaw p) := by
    unfold Tree.index
    rw [if_pos ⟨hlen, by omega⟩]
  unfold Tree.refineCell
  rw [hidx, opt_some_bind, if_pos hmem]
  simp only []
  rw [refineFold_eq t p (p.getLastD 0 + 1) (by omega) _
    (refineCell_child_length t p (p.getLastD 0 + 1) hlen hdim _)]
  rw [opt_some_bind]
  simp

theorem foldlM_none_of_head {α β : Type} (f : β → α → Option β) (a : α)
    (rest : List α) (acc : β) (h : f acc a = none) :
    List.foldlM f acc (a :: rest) = none := by
  rw [List.foldlM_cons, h]
  rfl

theorem refineCell_none_of_notmem (t : Tree) (p : List ℤ)
    (hlen : p.length = t.dim + 1) (hlev : p.getLastD 0 ≤ (t.levels : ℤ))
    (hnm : t.indexRaw p ∉ t.treeInds) :
    t.refineCell p = none := by
  have hidx : t.index p = some (t.indexRaw p) := by
    unfold Tree.index
    rw [if_pos ⟨hlen, hlev⟩]
  unfold Tree.refineCell
  rw [hidx, opt_some_bind, if_neg hnm]

theorem refineCell_none_of_top (t : Tree) (p : List ℤ)
    (hlen : p.length = t.dim + 1) (hlev : p.getLastD 0 = (t.levels : ℤ)) :
    t.refineCell p = none := by
  have hidx : t.index p = some (t.indexRaw p) := by
    unfold Tree.index
    rw [if_pos ⟨hlen, by omega⟩]
  unfold Tree.refineCell
  rw [hidx, opt_some_bind]
  by_cases hmem : t.indexRaw p ∈ t.treeInds
  · rw [if_pos hmem]
    simp only []
    obtain ⟨off0, rest, heq⟩ : ∃ off0 rest,
        t.refineOffsets (t.levelWidth (p.getLastD 0) / 2) = off0 :: rest :=
      ⟨_, _, rfl⟩
    rw [heq, foldlM_none_of_head _ _ _ _ (by
      have hnone : t.index (List.zipWith (· + ·) p.dropLast off0 ++
          [p.getLastD 0 + 1]) = none := by
        unfold Tree.index
        rw [if_neg]
        rintro ⟨_, h2⟩
        rw [getLastD_concat] at h2
        omega
      rw [hnone]
      rfl)]
    rfl
  · rw [if_neg hmem]

/-- C7: `_refineCell` fails (raises) exactly when the target cell is not in
the live cell set or when its level already equals `levels`; on a live cell
with level strictly below `levels` it succeeds. -/
theorem claim7_refineCell_success_iff (t : Tree) (p : List ℤ)
    (hdim : t.dim = 2 ∨ t.dim = 3) (hlen : p.length = t.dim + 1)
    (hlev : p.getLastD 0 ≤ (t.levels : ℤ)) :
    (t.refineCell p).isSome ↔
      (t.indexRaw p ∈ t.treeInds ∧ p.getLastD 0 < (t.levels : ℤ)) := by
  constructor
  · intro hsome
    by_contra hcon
    rw [not_and_or] at hcon
    rcases hcon with hnm | hnl
    · rw [refineCell_none_of_notmem t p hlen hlev hnm] at hsome
      exact absurd hsome (by decide)
    · rw [refineCell_none_of_top t p hlen (by omega)] at hsome
      exact absurd hsome (by decide)
  · rintro ⟨hmem, hlt⟩
    rw [refineCell_eq_of_success t p hdim hlen hlt hmem]
    rfl

/-- Witness for C7: the root of `Tree([4,4], levels=2)` is live at level
`0 < 2`, so refining it succeeds. -/
theorem claim7_witness : (w2.refineCell [0, 0, 0]).isSome :=
  (claim7_refineCell_success_iff w2 [0, 0, 0] (Or.inl (by decide)) (by decide)
    (by decide)).mpr ⟨by decide, by decide⟩

/-! ## Claim 6: refining replaces a cell by its `2^d` children -/

theorem addInd_nodup (l : List ℤ) (i : ℤ) (h : l.Nodup) :
    (Tree.addInd l i).Nodup := by
  unfold Tree.addInd
  by_cases hi : i ∈ l
  · rwa [if_pos hi]
  · rw [if_neg hi]
    apply List.Nodup.append h (List.nodup_singleton i)
    intro a ha hb
    rw [List.mem_singleton] at hb
    exact hi (hb ▸ ha)

theorem addInd_toFinset (l : List ℤ) (i : ℤ) :
    (Tree.addInd l i).toFinset = insert i l.toFinset := by
  unfold Tree.addInd
  by_cases hi : i ∈ l
  · rw [if_pos hi]
    rw [Finset.insert_eq_self.mpr (List.mem_toFinset.mpr hi)]
  · rw [if_neg hi]
    ext x
    simp [or_comm]

theorem foldl_addInd_nodup (cs : List ℤ) : ∀ l : List ℤ, l.Nodup →
    (cs.foldl Tree.addInd l).Nodup := by
  induction cs with
  | nil => intro l h; exact h
  | cons c cs ih =>
    intro l h
    exact ih _ (addInd_nodup l c h)

theorem foldl_addInd_toFinset (cs : List ℤ) : ∀ l : List ℤ,
    (cs.foldl Tree.addInd l).toFinset = l.toFinset ∪ cs.toFinset := by
  induction cs with
  | nil => intro l; simp
  | cons c cs ih =>
    intro l
    rw [List.foldl_cons, ih (Tree.addInd l c), addInd_toFinset]
    ext x
    simp


theorem zipWith_add_cancel (c : List ℤ) : ∀ o1 o2 : List ℤ,
    o1.length = c.length → o2.length = c.length →
    List.zipWith (· + ·) c o1 = List.zipWith (· + ·) c o2 → o1 = o2 := by
  induction c with
  | nil =>
    intro o1 o2 h1 h2 _
    rw [List.length_nil, List.length_eq_zero] at h1 h2
    rw [h1, h2]
  | cons x c ih =>
    intro o1 o2 h1 h2 heq
    match o1, o2 with
    | a :: o1, b :: o2 =>
      simp only [List.zipWith_cons_cons, List.cons.injEq] at heq
      have := ih o1 o2 (by simpa using h1) (by simpa using h2) heq.2
      rw [this, show a = b by omega]

theorem hw_eq_pow (t : Tree) (l : ℤ) (hl0 : 0 ≤ l) (hlt : l < (t.levels : ℤ)) :
    t.levelWidth l / 2 = 2 ^ (((t.levels : ℤ) - l - 1).toNat) := by
  unfold Tree.levelWidth
  have h1 : ((t.levels : ℤ) - l).toNat = ((t.levels : ℤ) - l - 1).toNat + 1 := by
    omega
  rw [h1, pow_succ, mul_comm, Int.mul_ediv_cancel_left _ (by omega : (2:ℤ) ≠ 0)]

theorem mem_listProd_replicate (dim : ℕ) (s : Finset ℤ) (q : List ℤ) :
    q ∈ listProd (List.replicate dim s) ↔
      q.length = dim ∧ ∀ x ∈ q, x ∈ s := by
  induction dim generalizing q with
  | zero =>
    rw [List.replicate_zero, mem_listProd_nil]
    constructor
    · rintro rfl; simp
    · rintro ⟨h, _⟩
      rwa [List.length_eq_zero] at h
  | succ d ih =>
    rw [List.replicate_succ, mem_listProd_cons]
    constructor
    · rintro ⟨a, tl, ha, htl, rfl⟩
      obtain ⟨hlen, hmem⟩ := (ih tl).mp htl
      refine ⟨by simp [hlen], ?_⟩
      intro x hx
      rcases List.mem_cons.mp hx with rfl | hx
      · exact ha
      · exact hmem x hx
    · rintro ⟨hlen, hmem⟩
      match q with
      | a :: tl =>
        refine ⟨a, tl, hmem a (List.mem_cons_self a tl), ?_, rfl⟩
        exact (ih tl).mpr ⟨by simpa using hlen,
          fun x hx => hmem x (List.mem_cons_of_mem a hx)⟩

theorem le_sub_of_dvd_lt (w c M : ℤ) (hw : 0 < w) (hdvd : w ∣ c) (hc : c < M)
    (hM : w ∣ M) : c ≤ M - w := by
  obtain ⟨k, rfl⟩ := hdvd
  obtain ⟨K, rfl⟩ := hM
  have hkK : k < K := lt_of_mul_lt_mul_left hc (by omega)
  have : w * k ≤ w * (K - 1) := by
    apply mul_le_mul_of_nonneg_left (by omega) (by omega)
  calc w * k ≤ w * (K - 1) := this
  _ = w * K - w := by ring

theorem child_coord_bound (t : Tree) (l x : ℤ) (hl0 : 0 ≤ l)
    (hlt : l < (t.levels : ℤ)) (hx0 : 0 ≤ x) (hxlt : x < 2 ^ t.levels)
    (hdvd : t.levelWidth l ∣ x) :
    x + 2 ^ (((t.levels : ℤ) - l - 1).toNat) < 2 ^ t.levels := by
  have hwpos : (0 : ℤ) < t.levelWidth l := by
    unfold Tree.levelWidth; positivity
  have hMdvd : t.levelWidth l ∣ (2 : ℤ) ^ t.levels := by
    unfold Tree.levelWidth
    apply pow_dvd_pow
    omega
  have hle := le_sub_of_dvd_lt (t.levelWidth l) x (2 ^ t.levels) hwpos hdvd hxlt hMdvd
  have hw2 : t.levelWidth l = 2 * 2 ^ (((t.levels : ℤ) - l - 1).toNat) := by
    unfold Tree.levelWidth
    rw [show ((t.levels : ℤ) - l).toNat = ((t.levels : ℤ) - l - 1).toNat + 1 by omega,
      pow_succ, mul_comm]
  have hpow : (0 : ℤ) < 2 ^ (((t.levels : ℤ) - l - 1).toNat) := by positivity
  omega

theorem zipWith_add_forall (P Q R : ℤ → Prop)
    (h : ∀ a b, P a → Q b → R (a + b)) :
    ∀ c o : List ℤ, (∀ x ∈ c, P x) → (∀ x ∈ o, Q x) →
      ∀ x ∈ List.zipWith (· + ·) c o, R x := by
  intro c
  induction c with
  | nil => intro o _ _ x hx; simp at hx
  | cons a c ih =>
    intro o hc ho x hx
    match o with
    | [] => simp at hx
    | b :: o =>
      rw [List.zipWith_cons_cons] at hx
      rcases List.mem_cons.mp hx with rfl | hx
      · exact h a b (hc a (List.mem_cons_self a c)) (ho b (List.mem_cons_self b o))
      · exact ih o (fun y hy => hc y (List.mem_cons_of_mem a hy))
          (fun y hy => ho y (List.mem_cons_of_mem b hy)) x hx

theorem pow_levels_le_pow20 (t : Tree) (hL20 : t.levels ≤ 20) :
    (2 : ℤ) ^ t.levels ≤ 2 ^ 20 :=
  pow_le_pow_right (by omega) hL20

theorem child_pointer_props (t : Tree) (p off : List ℤ)
    (hdim : 0 < t.dim) (hL20 : t.levels ≤ 20) (hvalid : t.ValidPtr p)
    (hlevlt : p.getLastD 0 < (t.levels : ℤ))
    (hofflen : off.length = t.dim)
    (hoffmem : ∀ x ∈ off, x = 0 ∨ x = 2 ^ (((t.levels : ℤ) - p.getLastD 0 - 1).toNat)) :
    (List.zipWith (· + ·) p.dropLast off ++ [p.getLastD 0 + 1]).length = t.dim + 1 ∧
      t.pointer (t.indexRaw
        (List.zipWith (· + ·) p.dropLast off ++ [p.getLastD 0 + 1])) =
        List.zipWith (· + ·) p.dropLast off ++ [p.getLastD 0 + 1] := by
  obtain ⟨hplen, hpl0, hpll, hpc⟩ := hvalid
  have hdlen : p.dropLast.length = t.dim := by
    rw [List.length_dropLast, hplen]; omega
  have hqlen : (List.zipWith (· + ·) p.dropLast off ++
      [p.getLastD 0 + 1]).length = t.dim + 1 := by
    rw [List.length_append, List.length_zipWith, hdlen, hofflen]
    simp
  have hcoords : ∀ x ∈ List.zipWith (· + ·) p.dropLast off, 0 ≤ x ∧ x < 2 ^ 20 := by
    apply zipWith_add_forall
      (fun a => 0 ≤ a ∧ a < 2 ^ t.levels ∧ t.levelWidth (p.getLastD 0) ∣ a)
      (fun b => b = 0 ∨ b = 2 ^ (((t.levels : ℤ) - p.getLastD 0 - 1).toNat))
      (fun x => 0 ≤ x ∧ x < 2 ^ 20) ?_ p.dropLast off hpc hoffmem
    intro a b ha hb
    have hbound := pow_levels_le_pow20 t hL20
    rcases hb with rfl | rfl
    · refine ⟨by omega, ?_⟩
      have := ha.2.1
      omega
    · have := child_coord_bound t (p.getLastD 0) a hpl0 hlevlt ha.1 ha.2.1 ha.2.2
      have hpowpos : (0 : ℤ) < 2 ^ (((t.levels : ℤ) - p.getLastD 0 - 1).toNat) := by
        positivity
      constructor
      · omega
      · omega
  have hdrop : (List.zipWith (· + ·) p.dropLast off ++
      [p.getLastD 0 + 1]).dropLast = List.zipWith (· + ·) p.dropLast off :=
    List.dropLast_concat
  have hlast : (List.zipWith (· + ·) p.dropLast off ++
      [p.getLastD 0 + 1]).getLastD 0 = p.getLastD 0 + 1 := getLastD_concat _ _ _
  refine ⟨hqlen, ?_⟩
  apply pointer_indexRaw t _ hdim hqlen
  · rw [hdrop]; exact hcoords
  · rw [hlast]; omega
  · rw [hlast]; omega

theorem refineOffsets_toFinset (t : Tree) (hdim : t.dim = 2 ∨ t.dim = 3)
    (hw : ℤ) :
    (t.refineOffsets hw).toFinset =
      listProd (List.replicate t.dim ({0, hw} : Finset ℤ)) := by
  rcases hdim with h | h
  · ext q
    rw [List.mem_toFinset, mem_listProd_replicate, h]
    constructor
    · intro hq
      simp [Tree.refineOffsets, h] at hq
      rcases hq with rfl | rfl | rfl | rfl <;> simp
    · rintro ⟨hlen, hmem⟩
      match q with
      | [a, b] =>
        have ha := hmem a (by simp)
        have hb := hmem b (by simp)
        rw [Finset.mem_insert, Finset.mem_singleton] at ha hb
        simp [Tree.refineOffsets, h]
        rcases ha with rfl | rfl <;> rcases hb with rfl | rfl <;> simp
  · ext q
    rw [List.mem_toFinset, mem_listProd_replicate, h]
    constructor
    · intro hq
      simp [Tree.refineOffsets, h] at hq
      rcases hq with rfl | rfl | rfl | rfl | rfl | rfl | rfl | rfl <;> simp
    · rintro ⟨hlen, hmem⟩
      match q with
      | [a, b, c] =>
        have ha := hmem a (by simp)
        have hb := hmem b (by simp)
        have hc := hmem c (by simp)
        rw [Finset.mem_insert, Finset.mem_singleton] at ha hb hc
        simp [Tree.refineOffsets, h]
        rcases ha with rfl | rfl <;> rcases hb with rfl | rfl <;>
          rcases hc with rfl | rfl <;> simp

theorem map_toFinset_image (l : List (List ℤ)) (f : List ℤ → ℤ) :
    (l.map f).toFinset = l.toFinset.image f := by
  ext x; simp

theorem pointer_roundtrip_of_valid (t : Tree) (p : List ℤ) (hdim : 0 < t.dim)
    (hL20 : t.levels ≤ 20) (hvalid : t.ValidPtr p) :
    t.pointer (t.indexRaw p) = p := by
  obtain ⟨hplen, hpl0, hpll, hpc⟩ := hvalid
  apply pointer_indexRaw t p hdim hplen _ hpl0 hpll
  intro x hx
  have hbound := pow_levels_le_pow20 t hL20
  obtain ⟨h1, h2, _⟩ := hpc x hx
  exact ⟨h1, by omega⟩

/-- C6: refining a live cell `c` at level `l < levels` removes exactly `c`
from the live cell set and adds exactly its `2^d` children at level `l+1`,
whose coordinates are the parent coordinates plus each element of the cross
product `{0, 2^(L-l-1)}^d`; no other cell is added or removed. -/
theorem claim6_refineCell_children (t : Tree) (p : List ℤ)
    (hdim : t.dim = 2 ∨ t.dim = 3) (hL20 : t.levels ≤ 20)
    (hvalid : t.ValidPtr p) (hlevlt : p.getLastD 0 < (t.levels : ℤ))
    (hmem : t.indexRaw p ∈ t.treeInds) (hnd : t.treeInds.Nodup) :
    ∃ t' added, t.refineCell p = some (t', added) ∧
      t'.treeInds.toFinset =
        (t.treeInds.toFinset.erase (t.indexRaw p)) ∪ t.specChildSet p ∧
      added.toFinset = t.specChildSet p ∧
      (t.specChildSet p).card = 2 ^ t.dim ∧
      t.indexRaw p ∉ t.specChildSet p ∧
      t'.treeInds.Nodup := by
  have hdim0 : 0 < t.dim := by rcases hdim with h | h <;> omega
  have hplen := hvalid.1
  have hpl0 := hvalid.2.1
  have hdlen : p.dropLast.length = t.dim := by
    rw [List.length_dropLast, hplen]; omega
  have hhw := hw_eq_pow t (p.getLastD 0) hpl0 hlevlt
  -- abbreviate the child-index map
  set ch : List ℤ → ℤ := fun off =>
    t.indexRaw (List.zipWith (· + ·) p.dropLast off ++ [p.getLastD 0 + 1])
    with hch
  have hchild : ∀ off ∈ listProd (List.replicate t.dim
      ({0, 2 ^ (((t.levels : ℤ) - p.getLastD 0 - 1).toNat)} : Finset ℤ)),
      t.pointer (ch off) =
        List.zipWith (· + ·) p.dropLast off ++ [p.getLastD 0 + 1] := by
    intro off hoff
    obtain ⟨hofflen, hoffmem⟩ := (mem_listProd_replicate _ _ off).mp hoff
    have hoffmem2 : ∀ x ∈ off,
        x = 0 ∨ x = 2 ^ (((t.levels : ℤ) - p.getLastD 0 - 1).toNat) := by
      intro x hx
      have := hoffmem x hx
      rwa [Finset.mem_insert, Finset.mem_singleton] at this
    exact (child_pointer_props t p off hdim0 hL20 hvalid hlevlt hofflen hoffmem2).2
  have hinj : Set.InjOn ch (listProd (List.replicate t.dim
      ({0, 2 ^ (((t.levels : ℤ) - p.getLastD 0 - 1).toNat)} : Finset ℤ))) := by
    intro o1 h1 o2 h2 heq
    have hq1 := hchild o1 h1
    have hq2 := hchild o2 h2
    rw [heq] at hq1
    have hq : List.zipWith (· + ·) p.dropLast o1 ++ [p.getLastD 0 + 1] =
        List.zipWith (· + ·) p.dropLast o2 ++ [p.getLastD 0 + 1] := by
      rw [← hq1, ← hq2]
    have hz := List.append_cancel_right hq
    obtain ⟨hl1, _⟩ := (mem_listProd_replicate _ _ o1).mp h1
    obtain ⟨hl2, _⟩ := (mem_listProd_replicate _ _ o2).mp h2
    exact zipWith_add_cancel p.dropLast o1 o2 (by omega) (by omega) hz
  have hnotmem : t.indexRaw p ∉ t.specChildSet p := by
    unfold Tree.specChildSet
    rw [Finset.mem_image]
    rintro ⟨off, hoff, hoffeq⟩
    have hq := hchild off hoff
    have hq2 : t.pointer (t.indexRaw p) =
        List.zipWith (· + ·) p.dropLast off ++ [p.getLastD 0 + 1] := by
      rw [← hoffeq]
      exact hq
    rw [pointer_roundtrip_of_valid t p hdim0 hL20 hvalid] at hq2
    have : p.getLastD 0 = (List.zipWith (· + ·) p.dropLast off ++
        [p.getLastD 0 + 1]).getLastD 0 := by rw [← hq2]
    rw [getLastD_concat] at this
    omega
  have hcard : (t.specChildSet p).card = 2 ^ t.dim := by
    unfold Tree.specChildSet
    rw [Finset.card_image_of_injOn hinj, listProd_card, List.map_replicate,
      Finset.card_insert_of_not_mem (by
        rw [Finset.mem_singleton]
        have : (0 : ℤ) < 2 ^ (((t.levels : ℤ) - p.getLastD 0 - 1).toNat) := by
          positivity
        omega),
      Finset.card_singleton, List.prod_replicate]
  obtain hsucc := refineCell_eq_of_success t p hdim hplen hlevlt hmem
  refine ⟨_, _, hsucc, ?_, ?_, hcard, hnotmem, ?_⟩
  · -- the new cell set
    show (((t.refineOffsets (t.levelWidth (p.getLastD 0) / 2)).foldl
        (fun l off => Tree.addInd l (ch off)) t.treeInds).erase
          (t.indexRaw p)).toFinset = _
    have hfnd : ((t.refineOffsets (t.levelWidth (p.getLastD 0) / 2)).foldl
        (fun l off => Tree.addInd l (ch off)) t.treeInds).Nodup := by
      rw [← List.foldl_map ch Tree.addInd]
      exact foldl_addInd_nodup _ _ hnd
    have htf : (((t.refineOffsets (t.levelWidth (p.getLastD 0) / 2)).foldl
        (fun l off => Tree.addInd l (ch off)) t.treeInds)).toFinset =
        t.treeInds.toFinset ∪ t.specChildSet p := by
      rw [← List.foldl_map ch Tree.addInd, foldl_addInd_toFinset,
        map_toFinset_image, refineOffsets_toFinset t hdim, hhw]
      rfl
    ext x
    rw [List.mem_toFinset, hfnd.mem_erase_iff, ← List.mem_toFinset, htf]
    rw [Finset.mem_union, Finset.mem_union, Finset.mem_erase]
    constructor
    · rintro ⟨hne, hin | hin⟩
      · exact Or.inl ⟨hne, hin⟩
      · exact Or.inr hin
    · rintro (⟨hne, hin⟩ | hin)
      · exact ⟨hne, Or.inl hin⟩
      · refine ⟨?_, Or.inr hin⟩
        rintro rfl
        exact hnotmem hin
  · -- the added list
    rw [map_toFinset_image, refineOffsets_toFinset t hdim, hhw]
    rfl
  · -- nodup of the new cell set
    apply List.Nodup.erase
    rw [← List.foldl_map ch Tree.addInd]
    exact foldl_addInd_nodup _ _ hnd

/-- Witness for C6: refining the root of `Tree([4,4], levels=2)`. -/
theorem claim6_witness :
    ∃ t' added, w2.refineCell [0, 0, 0] = some (t', added) ∧
      t'.treeInds.toFinset =
        (w2.treeInds.toFinset.erase (w2.indexRaw [0, 0, 0])) ∪
          w2.specChildSet [0, 0, 0] ∧
      added.toFinset = w2.specChildSet [0, 0, 0] ∧
      (w2.specChildSet [0, 0, 0]).card = 2 ^ w2.dim ∧
      w2.indexRaw [0, 0, 0] ∉ w2.specChildSet [0, 0, 0] ∧
      t'.treeInds.Nodup :=
  claim6_refineCell_children w2 [0, 0, 0] (Or.inl (by decide)) (by decide)
    (by unfold Tree.ValidPtr; decide) (by decide) (by decide) (by decide)

/-! ## Claim 9: constructor validation -/

theorem mapM_isSome {α β : Type} (f : α → Option β) :
    ∀ l : List α, (l.mapM f).isSome ↔ ∀ x ∈ l, (f x).isSome := by
  intro l
  induction l with
  | nil =>
    simp only [List.not_mem_nil, false_implies, implies_true, iff_true]
    rfl
  | cons a l ih =>
    rw [List.mapM_cons]
    cases hfa : f a with
    | none => simp [hfa, opt_none_bind]
    | some b =>
      cases hml : l.mapM f with
      | none =>
        rw [hml] at ih
        rw [opt_some_bind, opt_none_bind]
        simp only [Option.isSome_none, Bool.false_eq_true, false_iff] at ih ⊢
        intro hall
        exact ih (fun x hx => hall x (List.mem_cons_of_mem a hx))
      | some bs =>
        rw [hml] at ih
        rw [opt_some_bind, opt_some_bind]
        simp only [Option.isSome_some, true_iff] at ih
        simp only [List.mem_cons, forall_eq_or_imp, hfa, Option.isSome_some,
          true_and]
        constructor
        · intro _; exact ih
        · intro _; rfl

/-- The claim C9 as stated is false: construction with four axes (d = 4)
succeeds, because `Tree.__init__` never checks `d ∈ {2,3}`. -/
theorem claim9_counterexample :
    (Tree.init [.arr qh2, .arr qh2, .arr qh2, .arr qh2] 1).isSome := by decide

/-- C9 (amended): construction of `Tree(h, L)` fails exactly when the list
has fewer than two axes or some axis is invalid (wrong length, or a negative
count); the dimension is never restricted to `{2,3}`, so `d = 4` (or more)
succeeds whenever the axis lengths match `2^L`. -/
theorem claim9_amended_init_success_iff (h_in : List HIn) (levels : ℕ) :
    (Tree.init h_in levels).isSome ↔
      (1 < h_in.length ∧ ∀ hi ∈ h_in, axisOk levels hi) := by
  unfold Tree.init
  by_cases hl : 1 < h_in.length
  · rw [if_pos hl]
    have hbind : ∀ o : Option (List (List ℚ)),
        (o >>= fun h =>
          (pure ({ h := h, levels := levels, treeInds := [0] } : Tree) :
            Option Tree)).isSome = o.isSome := by
      intro o; cases o <;> rfl
    rw [hbind]
    rw [mapM_isSome]
    simp only [hl, true_and]
    apply forall_congr'
    intro hi
    apply imp_congr_right
    intro _
    cases hi with
    | num n =>
      simp only []
      unfold axisOk
      by_cases hn : 0 ≤ n
      · rw [if_pos hn]
        simp only [List.length_replicate]
        by_cases hlen : n.toNat = 2 ^ levels
        · rw [if_pos hlen]; simp [hn, hlen]
        · rw [if_neg hlen]; simp [hn, hlen]
      · rw [if_neg hn]; simp [hn]
    | arr a =>
      simp only []
      unfold axisOk
      by_cases hlen : a.length = 2 ^ levels
      · rw [if_pos hlen]; simp [hlen]
      · rw [if_neg hlen]; simp [hlen]
  · rw [if_neg hl]
    simp [hl]

/-! ## Claim 10: `refine` returns only the first-pass children -/

/-- C10: for every call `refine(predicate, recursive=True)`, the returned
list is exactly the list produced by the first (top-level) pass over the
candidate cells; children created during the recursive passes are never
included, even though they are added to the live cell set. -/
theorem claim10_refine_returns_first_pass (t : Tree) (fuel : ℕ)
    (f : List ℚ → ℚ) (cells : Option (List ℤ)) (t' : Tree) (lst : List ℤ)
    (h : t.refine (fuel + 1) f true cells = some (t', lst)) :
    ∃ t1, t.refinePass f
      (cells.getD (List.insertionSort (· ≤ ·) t.treeInds)) = some (t1, lst) := by
  unfold Tree.refine at h
  simp only [] at h
  rcases hp : t.refinePass f
      (cells.getD (List.insertionSort (· ≤ ·) t.treeInds)) with _ | ⟨t1, rec⟩
  · rw [hp] at h
    exact absurd h (by simp)
  · rw [hp, opt_some_bind] at h
    simp only [] at h
    by_cases hrec : rec = []
    · subst hrec
      rw [if_neg (by simp)] at h
      have h2 : ((t1, ([] : List ℤ)) : Tree × List ℤ) = (t', lst) :=
        Option.some.inj h
      injection h2 with ha hb
      subst hb
      exact ⟨t1, rfl⟩
    · rw [if_pos ⟨trivial, hrec⟩] at h
      rcases hr : t1.refine fuel f true (some rec) with _ | ⟨t2, l2⟩
      · rw [hr] at h
        exact absurd h (by simp)
      · rw [hr, opt_some_bind] at h
        simp only [] at h
        have h2 : ((t2, rec) : Tree × List ℤ) = (t', lst) := Option.some.inj h
        injection h2 with ha hb
        subst hb
        exact ⟨t1, rfl⟩

/-- Witness for C10: with the constant predicate 2 on `Tree([4,4], 2)`,
`refine` drives every cell to level 2 (sixteen live cells) but returns only
the four level-1 children of the first pass. -/
theorem claim10_witness :
    (∃ t1, w2.refinePass (fun _ => 2)
        ((Option.none : Option (List ℤ)).getD
          (List.insertionSort (· ≤ ·) w2.treeInds)) =
        some (t1, w2refine2.2)) ∧
      w2refine2.2.length = 4 ∧ w2refine2.1.treeInds.length = 16 :=
  ⟨claim10_refine_returns_first_pass w2 4 (fun _ => 2) Option.none
      w2refine2.1 w2refine2.2 (by set_option maxRecDepth 20000 in rfl),
    by decide, by decide⟩

/-! ## Claim 4: hanging faces in the list branch of processCell -/

set_option maxRecDepth 100000 in
/-- C4 counterexample: in the 3-D mesh `w3rr` (all of `Tree([h,h,h], 2)`
refined to level 1, then cell `[2,0,0,1]` refined again), the positive-`x`
neighbor query of cell `1` returns the four finer children
`[66, 82, 98, 114]`, yet the numbering records only two face ids `[1, 2]`
in `c2f[1]` on the positive-`x` side and only two hanging `x`-faces —
not `2^(d-1) = 4`: the `list` branch of `processCell` reads only
`nextCell[0]` and `nextCell[1]`. -/
theorem claim4_counterexample :
    w3rr.dim = 3 ∧
      (w3rr.getNextCell 40 (w3rr.pointer 1) 0 true).map NextCell.intsOfList =
        some (some [66, 82, 98, 114]) ∧
      (NumState.c2fGet w3rr.dim w3m.c2f 1).getD 1 [] = [1, 2] ∧
      w3m.hangingFacesX = [1, 2] ∧
      ([1, 2] : List ℤ).length ≠ 2 ^ (w3rr.dim - 1) :=
  ⟨by decide, by rfl, by decide, by decide, by decide⟩

/-! ## Claim 2: the volume partition -/

theorem bitrange_single_lt_two (x : ℤ) (w s : ℕ) :
    ZCurve.bitrange x w s (s + 1) < 2 := by
  unfold ZCurve.bitrange
  have h1 : s + 1 - s = 1 := by omega
  rw [h1]
  have h2 := Int.emod_lt_of_pos (x / 2 ^ (w - (s + 1)))
    (by norm_num : (0:ℤ) < 2 ^ 1)
  simpa using h2

theorem pointAux_lt (d bits : ℕ) (hd : 0 < d) (hb : 0 < bits) (idx : ℤ) :
    ∀ i, ∀ x ∈ ZCurve.pointAux d bits idx i, x < 2 ^ bits := by
  intro i
  induction i with
  | zero =>
    intro x hx
    rw [ZCurve.pointAux] at hx
    rw [List.eq_of_mem_replicate hx]
    positivity
  | succ i ih =>
    intro x hx
    rw [show ZCurve.pointAux d bits idx (i + 1) =
      (ZCurve.pointAux d bits idx i).set (i % d)
        ((ZCurve.pointAux d bits idx i).getD (i % d) 0 |||
          ((ZCurve.bitrange idx (bits * d) i (i + 1)).toNat <<<
            ((bits * d - i - 1) / d))) from rfl] at hx
    rcases List.mem_or_eq_of_mem_set hx with h1 | h2
    · exact ih x h1
    · subst h2
      apply Nat.or_lt_two_pow
      · by_cases hlt : i % d < (ZCurve.pointAux d bits idx i).length
        · rw [List.getD_eq_getElem _ _ hlt]
          exact ih _ (List.getElem_mem hlt)
        · rw [List.getD_eq_default _ _ (by omega)]
          positivity
      · have hm : (ZCurve.bitrange idx (bits * d) i (i + 1)).toNat ≤ 1 := by
          have hlt2 := bitrange_single_lt_two idx (bits * d) i
          omega
        have hsh : (bits * d - i - 1) / d < bits := by
          rw [Nat.div_lt_iff_lt_mul hd]
          have hpos : 0 < bits * d := Nat.mul_pos hb hd
          omega
        calc (ZCurve.bitrange idx (bits * d) i (i + 1)).toNat <<<
              ((bits * d - i - 1) / d)
            = (ZCurve.bitrange idx (bits * d) i (i + 1)).toNat *
              2 ^ ((bits * d - i - 1) / d) := by rw [Nat.shiftLeft_eq]
          _ ≤ 1 * 2 ^ ((bits * d - i - 1) / d) := by
              exact Nat.mul_le_mul_right _ hm
          _ = 2 ^ ((bits * d - i - 1) / d) := by ring
          _ < 2 ^ bits := Nat.pow_lt_pow_right (by norm_num) hsh

theorem point_bounds (d : ℕ) (hd : 0 < d) (idx : ℤ) :
    ∀ x ∈ ZCurve.point d 20 idx, 0 ≤ x ∧ x < 2 ^ 20 := by
  intro x hx
  unfold ZCurve.point at hx
  rw [List.mem_reverse, List.mem_map] at hx
  obtain ⟨n, hn, rfl⟩ := hx
  refine ⟨Int.ofNat_nonneg n, ?_⟩
  have hlt := pointAux_lt d 20 hd (by norm_num) idx (20 * d) n hn
  have h20 : ((2:ℤ) ^ 20) = ((2 ^ 20 : ℕ) : ℤ) := by push_cast
  rw [h20]
  exact Int.ofNat_lt.mpr hlt

theorem point_len (d bits : ℕ) (idx : ℤ) :
    (ZCurve.point d bits idx).length = d := by
  unfold ZCurve.point
  rw [List.length_reverse, List.length_map, pointAux_length]

theorem pointer_canonical (t : Tree) (hd : 0 < t.dim) (cell : ℤ) :
    (t.pointer cell).length = t.dim + 1 ∧
      (∀ x ∈ (t.pointer cell).dropLast, 0 ≤ x ∧ x < 2 ^ 20) ∧
      0 ≤ (t.pointer cell).getLastD 0 := by
  unfold Tree.pointer
  simp only []
  refine ⟨?_, ?_, ?_⟩
  · rw [List.length_append, point_len]
    simp
  · rw [List.dropLast_concat]
    exact point_bounds t.dim hd _
  · rw [getLastD_concat]
    exact Int.emod_nonneg _ (by positivity)

theorem refineCell_success_shape (t : Tree) (p : List ℤ)
    (r : Tree × List ℤ) (h : t.refineCell p = some r) :
    p.length = t.dim + 1 ∧ p.getLastD 0 ≤ (t.levels : ℤ) ∧
      t.indexRaw p ∈ t.treeInds := by
  unfold Tree.refineCell Tree.index at h
  by_cases hg : p.length = t.dim + 1 ∧ p.getLastD 0 ≤ (t.levels : ℤ)
  · rw [if_pos hg, opt_some_bind] at h
    by_cases hm : t.indexRaw p ∈ t.treeInds
    · exact ⟨hg.1, hg.2, hm⟩
    · rw [if_neg hm] at h
      cases h
  · rw [if_neg hg, opt_none_bind] at h
    cases h

theorem refineCell_pointer_valid (t : Tree) (cell : ℤ) (r : Tree × List ℤ)
    (hd : 0 < t.dim)
    (hinvV : ∀ ind ∈ t.treeInds, t.ValidPtr (t.pointer ind))
    (h : t.refineCell (t.pointer cell) = some r) :
    t.ValidPtr (t.pointer cell) := by
  obtain ⟨hlen, hlev, hmem⟩ := refineCell_success_shape t _ r h
  obtain ⟨_, hco, hl0⟩ := pointer_canonical t hd cell
  have hround : t.pointer (t.indexRaw (t.pointer cell)) = t.pointer cell :=
    pointer_indexRaw t _ hd hlen hco hl0 hlev
  have := hinvV _ hmem
  rwa [hround] at this

theorem biUnion_union_split (s t : Finset ℤ) (f : ℤ → Finset (List ℤ)) :
    (s ∪ t).biUnion f = s.biUnion f ∪ t.biUnion f := by
  ext x
  simp only [Finset.mem_biUnion, Finset.mem_union]
  constructor
  · rintro ⟨a, h1 | h2, hx⟩
    · exact Or.inl ⟨a, h1, hx⟩
    · exact Or.inr ⟨a, h2, hx⟩
  · rintro (⟨a, h1, hx⟩ | ⟨a, h2, hx⟩)
    · exact ⟨a, Or.inl h1, hx⟩
    · exact ⟨a, Or.inr h2, hx⟩

theorem mem_listProd_getD (ss : List (Finset ℤ)) :
    ∀ q : List ℤ, q ∈ listProd ss ↔
      (q.length = ss.length ∧
        ∀ i, i < ss.length → q.getD i 0 ∈ ss.getD i ∅) := by
  induction ss with
  | nil =>
    intro q
    rw [mem_listProd_nil]
    constructor
    · rintro rfl
      exact ⟨rfl, by intro i hi; simp at hi⟩
    · rintro ⟨h, _⟩
      exact List.length_eq_zero.mp h
  | cons s ss ih =>
    intro q
    rw [mem_listProd_cons]
    constructor
    · rintro ⟨a, tl, ha, htl, rfl⟩
      obtain ⟨hlen, hmem⟩ := (ih tl).mp htl
      refine ⟨by simp [hlen], ?_⟩
      intro i hi
      cases i with
      | zero => simpa using ha
      | succ i' =>
        rw [List.getD_cons_succ, List.getD_cons_succ]
        exact hmem i' (by simpa using hi)
    · rintro ⟨hlen, hmem⟩
      match q with
      | a :: tl =>
        refine ⟨a, tl, ?_, ?_, rfl⟩
        · have := hmem 0 (by simp)
          simpa using this
        · refine (ih tl).mpr ⟨by simpa using hlen, ?_⟩
          intro i hi
          have := hmem (i + 1) (by simpa using hi)
          rw [List.getD_cons_succ, List.getD_cons_succ] at this
          exact this

theorem getD_map_finset (f : ℤ → Finset ℤ) (cs : List ℤ) (i : ℕ)
    (h : i < cs.length) :
    (cs.map f).getD i ∅ = f (cs.getD i 0) := by
  rw [List.getD_eq_getElem _ _ (by simpa using h), List.getElem_map,
    List.getD_eq_getElem _ _ h]

theorem zipWith_getD (f : ℤ → ℤ → ℤ) :
    ∀ (a b : List ℤ) (i : ℕ), i < a.length → i < b.length →
      (List.zipWith f a b).getD i 0 = f (a.getD i 0) (b.getD i 0) := by
  intro a
  induction a with
  | nil => intro b i hi _; simp at hi
  | cons x a ih =>
    intro b i hia hib
    match b with
    | [] => simp at hib
    | y :: b =>
      rw [List.zipWith_cons_cons]
      cases i with
      | zero => simp
      | succ i' =>
        rw [List.getD_cons_succ, List.getD_cons_succ, List.getD_cons_succ]
        exact ih b i' (by simpa using hia) (by simpa using hib)

theorem mem_region_iff (t : Tree) (p q : List ℤ) :
    q ∈ t.region p ↔
      (q.length = p.dropLast.length ∧
        ∀ i, i < p.dropLast.length →
          p.dropLast.getD i 0 ≤ q.getD i 0 ∧
            q.getD i 0 < p.dropLast.getD i 0 + t.levelWidth (p.getLastD 0)) := by
  unfold Tree.region
  rw [mem_listProd_getD, List.length_map]
  constructor
  · rintro ⟨h1, h2⟩
    refine ⟨h1, ?_⟩
    intro i hi
    have := h2 i hi
    rw [getD_map_finset _ _ _ hi, Finset.mem_Ico] at this
    exact this
  · rintro ⟨h1, h2⟩
    refine ⟨h1, ?_⟩
    intro i hi
    rw [getD_map_finset _ _ _ hi, Finset.mem_Ico]
    exact h2 i hi

theorem mem_fullGrid_iff (t : Tree) (q : List ℤ) :
    q ∈ t.fullGrid ↔
      q.length = t.dim ∧ ∀ x ∈ q, 0 ≤ x ∧ x < 2 ^ t.levels := by
  unfold Tree.fullGrid
  rw [show (t.h.map (fun _ => Finset.Ico (0:ℤ) (2 ^ t.levels))) =
      List.replicate t.dim (Finset.Ico (0:ℤ) (2 ^ t.levels)) by
    rw [List.map_const']
    rfl]
  rw [mem_listProd_replicate]
  constructor
  · rintro ⟨h1, h2⟩
    exact ⟨h1, fun x hx => by have := h2 x hx; rwa [Finset.mem_Ico] at this⟩
  · rintro ⟨h1, h2⟩
    exact ⟨h1, fun x hx => by rw [Finset.mem_Ico]; exact h2 x hx⟩

theorem levelWidth_succ (t : Tree) (l : ℤ) (hl0 : 0 ≤ l)
    (hlt : l < (t.levels : ℤ)) :
    t.levelWidth (l + 1) = 2 ^ (((t.levels : ℤ) - l - 1).toNat) := by
  unfold Tree.levelWidth
  congr 1
  omega

theorem levelWidth_two_hw (t : Tree) (l : ℤ) (hl0 : 0 ≤ l)
    (hlt : l < (t.levels : ℤ)) :
    t.levelWidth l = 2 * 2 ^ (((t.levels : ℤ) - l - 1).toNat) := by
  unfold Tree.levelWidth
  rw [show ((t.levels : ℤ) - l).toNat = ((t.levels : ℤ) - l - 1).toNat + 1 by
    omega, pow_succ, mul_comm]

theorem child_valid (t : Tree) (p off : List ℤ)
    (hvalid : t.ValidPtr p) (hlevlt : p.getLastD 0 < (t.levels : ℤ))
    (hofflen : off.length = t.dim)
    (hoffmem : ∀ x ∈ off,
      x = 0 ∨ x = 2 ^ (((t.levels : ℤ) - p.getLastD 0 - 1).toNat)) :
    t.ValidPtr (List.zipWith (· + ·) p.dropLast off ++ [p.getLastD 0 + 1]) := by
  obtain ⟨hplen, hpl0, hpll, hpc⟩ := hvalid
  have hdlen : p.dropLast.length = t.dim := by
    rw [List.length_dropLast, hplen]; omega
  refine ⟨?_, ?_, ?_, ?_⟩
  · rw [List.length_append, List.length_zipWith, hdlen, hofflen]; simp
  · rw [getLastD_concat]; omega
  · rw [getLastD_concat]; omega
  · rw [List.dropLast_concat, getLastD_concat,
      levelWidth_succ t _ hpl0 hlevlt]
    apply zipWith_add_forall
      (fun a => 0 ≤ a ∧ a < 2 ^ t.levels ∧ t.levelWidth (p.getLastD 0) ∣ a)
      (fun b => b = 0 ∨ b = 2 ^ (((t.levels : ℤ) - p.getLastD 0 - 1).toNat))
      (fun x => 0 ≤ x ∧ x < 2 ^ t.levels ∧
        2 ^ (((t.levels : ℤ) - p.getLastD 0 - 1).toNat) ∣ x)
      ?_ p.dropLast off hpc hoffmem
    intro a b ha hb
    have hw2 := levelWidth_two_hw t _ hpl0 hlevlt
    have hdvd : (2:ℤ) ^ (((t.levels : ℤ) - p.getLastD 0 - 1).toNat) ∣ a := by
      obtain ⟨k, hk⟩ := ha.2.2
      exact ⟨2 * k, by rw [hk, hw2]; ring⟩
    rcases hb with rfl | rfl
    · refine ⟨by omega, by have := ha.2.1; omega, ?_⟩
      simpa using hdvd
    · have hbnd := child_coord_bound t (p.getLastD 0) a hpl0 hlevlt
        ha.1 ha.2.1 ha.2.2
      have hpowpos : (0:ℤ) <
          2 ^ (((t.levels : ℤ) - p.getLastD 0 - 1).toNat) := by positivity
      exact ⟨by omega, hbnd, dvd_add hdvd dvd_rfl⟩

theorem region_child_subset (t : Tree) (p off : List ℤ)
    (hvalid : t.ValidPtr p) (hlevlt : p.getLastD 0 < (t.levels : ℤ))
    (hofflen : off.length = t.dim)
    (hoffmem : ∀ x ∈ off,
      x = 0 ∨ x = 2 ^ (((t.levels : ℤ) - p.getLastD 0 - 1).toNat)) :
    t.region (List.zipWith (· + ·) p.dropLast off ++ [p.getLastD 0 + 1]) ⊆
      t.region p := by
  intro q hq
  rw [mem_region_iff] at hq ⊢
  rw [List.dropLast_concat, getLastD_concat] at hq
  obtain ⟨hqlen, hqb⟩ := hq
  obtain ⟨hplen, hpl0, _, _⟩ := hvalid
  have hdlen : p.dropLast.length = t.dim := by
    rw [List.length_dropLast, hplen]; omega
  rw [List.length_zipWith, hdlen, hofflen] at hqlen
  refine ⟨by omega, ?_⟩
  intro i hi
  have hii : i < t.dim := by omega
  have hb := hqb i (by rw [List.length_zipWith]; omega)
  rw [zipWith_getD _ _ _ i (by omega) (by omega),
    levelWidth_succ t _ hpl0 hlevlt] at hb
  have hoi : off.getD i 0 = 0 ∨
      off.getD i 0 = 2 ^ (((t.levels : ℤ) - p.getLastD 0 - 1).toNat) := by
    apply hoffmem
    rw [List.getD_eq_getElem _ _ (by omega)]
    exact List.getElem_mem (by omega)
  have hw2 := levelWidth_two_hw t _ hpl0 hlevlt
  have hpow : (0:ℤ) < 2 ^ (((t.levels : ℤ) - p.getLastD 0 - 1).toNat) := by
    positivity
  rw [hw2]
  rcases hoi with h0 | h0 <;> rw [h0] at hb <;> omega

theorem lists_ne_exists_getD (a b : List ℤ) (hlen : a.length = b.length)
    (hne : a ≠ b) : ∃ i, i < a.length ∧ a.getD i 0 ≠ b.getD i 0 := by
  by_contra hc
  push_neg at hc
  apply hne
  apply List.ext_getElem hlen
  intro i h1 h2
  have := hc i h1
  rwa [List.getD_eq_getElem _ _ h1, List.getD_eq_getElem _ _ h2] at this

theorem region_children_disjoint (t : Tree) (p off1 off2 : List ℤ)
    (hvalid : t.ValidPtr p) (hlevlt : p.getLastD 0 < (t.levels : ℤ))
    (hofflen1 : off1.length = t.dim) (hofflen2 : off2.length = t.dim)
    (hoffmem1 : ∀ x ∈ off1,
      x = 0 ∨ x = 2 ^ (((t.levels : ℤ) - p.getLastD 0 - 1).toNat))
    (hoffmem2 : ∀ x ∈ off2,
      x = 0 ∨ x = 2 ^ (((t.levels : ℤ) - p.getLastD 0 - 1).toNat))
    (hne : off1 ≠ off2) :
    Disjoint
      (t.region (List.zipWith (· + ·) p.dropLast off1 ++ [p.getLastD 0 + 1]))
      (t.region (List.zipWith (· + ·) p.dropLast off2 ++
        [p.getLastD 0 + 1])) := by
  rw [Finset.disjoint_left]
  intro q hq1 hq2
  rw [mem_region_iff, List.dropLast_concat, getLastD_concat] at hq1 hq2
  obtain ⟨i, hilen, hnei⟩ := lists_ne_exists_getD off1 off2 (by omega) hne
  obtain ⟨hplen, hpl0, _, _⟩ := hvalid
  have hdlen : p.dropLast.length = t.dim := by
    rw [List.length_dropLast, hplen]; omega
  have hb1 := hq1.2 i (by rw [List.length_zipWith]; omega)
  have hb2 := hq2.2 i (by rw [List.length_zipWith]; omega)
  rw [zipWith_getD _ _ _ i (by omega) (by omega),
    levelWidth_succ t _ hpl0 hlevlt] at hb1
  rw [zipWith_getD _ _ _ i (by omega) (by omega),
    levelWidth_succ t _ hpl0 hlevlt] at hb2
  have ho1 : off1.getD i 0 = 0 ∨
      off1.getD i 0 = 2 ^ (((t.levels : ℤ) - p.getLastD 0 - 1).toNat) := by
    apply hoffmem1
    rw [List.getD_eq_getElem _ _ (by omega)]
    exact List.getElem_mem (by omega)
  have ho2 : off2.getD i 0 = 0 ∨
      off2.getD i 0 = 2 ^ (((t.levels : ℤ) - p.getLastD 0 - 1).toNat) := by
    apply hoffmem2
    rw [List.getD_eq_getElem _ _ (by omega)]
    exact List.getElem_mem (by omega)
  have hpow : (0:ℤ) < 2 ^ (((t.levels : ℤ) - p.getLastD 0 - 1).toNat) := by
    positivity
  rcases ho1 with h1 | h1 <;> rcases ho2 with h2 | h2 <;>
    rw [h1] at hb1 hnei <;> rw [h2] at hb2 hnei <;>
    first
      | exact hnei rfl
      | omega

theorem zipWith_if_mem (hw : ℤ) :
    ∀ (cs q : List ℤ),
      ∀ x ∈ List.zipWith
        (fun ci qi => if qi < ci + hw then (0:ℤ) else hw) cs q,
        x = 0 ∨ x = hw := by
  intro cs
  induction cs with
  | nil => intro q x hx; simp at hx
  | cons c cs ih =>
    intro q x hx
    match q with
    | [] => simp at hx
    | a :: q =>
      rw [List.zipWith_cons_cons] at hx
      rcases List.mem_cons.mp hx with rfl | hx
      · split_ifs <;> simp
      · exact ih q x hx

theorem region_children_cover (t : Tree) (p : List ℤ) (q : List ℤ)
    (hvalid : t.ValidPtr p) (hlevlt : p.getLastD 0 < (t.levels : ℤ))
    (hq : q ∈ t.region p) :
    ∃ off ∈ listProd (List.replicate t.dim
        ({0, 2 ^ (((t.levels : ℤ) - p.getLastD 0 - 1).toNat)} : Finset ℤ)),
      q ∈ t.region
        (List.zipWith (· + ·) p.dropLast off ++ [p.getLastD 0 + 1]) := by
  obtain ⟨hplen, hpl0, _, _⟩ := hvalid
  have hdlen : p.dropLast.length = t.dim := by
    rw [List.length_dropLast, hplen]; omega
  rw [mem_region_iff] at hq
  obtain ⟨hqlen, hqb⟩ := hq
  refine ⟨List.zipWith
    (fun ci qi => if qi < ci + 2 ^ (((t.levels : ℤ) - p.getLastD 0 - 1).toNat)
      then (0:ℤ)
      else 2 ^ (((t.levels : ℤ) - p.getLastD 0 - 1).toNat)) p.dropLast q,
    ?_, ?_⟩
  · rw [mem_listProd_replicate]
    refine ⟨by rw [List.length_zipWith]; omega, ?_⟩
    intro x hx
    rcases zipWith_if_mem _ p.dropLast q x hx with rfl | rfl <;> simp
  · rw [mem_region_iff, List.dropLast_concat, getLastD_concat]
    refine ⟨by rw [List.length_zipWith, List.length_zipWith]; omega, ?_⟩
    intro i hi
    rw [List.length_zipWith, List.length_zipWith] at hi
    have hii : i < t.dim := by omega
    rw [zipWith_getD _ _ _ i (by omega) (by rw [List.length_zipWith]; omega),
      zipWith_getD _ _ _ i (by omega) (by omega),
      levelWidth_succ t _ hpl0 hlevlt]
    have hb := hqb i (by omega)
    have hw2 := levelWidth_two_hw t _ hpl0 hlevlt
    rw [hw2] at hb
    split_ifs with hcase <;> omega

theorem region_parent_eq (t : Tree) (p : List ℤ)
    (hvalid : t.ValidPtr p) (hlevlt : p.getLastD 0 < (t.levels : ℤ)) :
    t.region p = (listProd (List.replicate t.dim
        ({0, 2 ^ (((t.levels : ℤ) - p.getLastD 0 - 1).toNat)} : Finset ℤ))).biUnion
      (fun off => t.region
        (List.zipWith (· + ·) p.dropLast off ++ [p.getLastD 0 + 1])) := by
  ext q
  rw [Finset.mem_biUnion]
  constructor
  · intro hq
    exact region_children_cover t p q hvalid hlevlt hq
  · rintro ⟨off, hoff, hq⟩
    obtain ⟨hofflen, hoffmem⟩ := (mem_listProd_replicate _ _ off).mp hoff
    have hoffmem2 : ∀ x ∈ off,
        x = 0 ∨ x = 2 ^ (((t.levels : ℤ) - p.getLastD 0 - 1).toNat) := by
      intro x hx
      have := hoffmem x hx
      rwa [Finset.mem_insert, Finset.mem_singleton] at this
    exact region_child_subset t p off hvalid hlevlt hofflen hoffmem2 hq

theorem refineCell_finset (t : Tree) (p : List ℤ) (t' : Tree) (added : List ℤ)
    (hdim : t.dim = 2 ∨ t.dim = 3) (hL20 : t.levels ≤ 20)
    (hvalid : t.ValidPtr p) (hlevlt : p.getLastD 0 < (t.levels : ℤ))
    (hmem : t.indexRaw p ∈ t.treeInds) (hnd : t.treeInds.Nodup)
    (hsome : t.refineCell p = some (t', added)) :
    t'.h = t.h ∧ t'.levels = t.levels ∧ t'.treeInds.Nodup ∧
      t'.treeInds.toFinset =
        (t.treeInds.toFinset.erase (t.indexRaw p)) ∪ t.specChildSet p := by
  have hdim0 : 0 < t.dim := by rcases hdim with h | h <;> omega
  have hplen := hvalid.1
  rw [refineCell_eq_of_success t p hdim hplen hlevlt hmem] at hsome
  simp only [Option.some.injEq, Prod.mk.injEq] at hsome
  obtain ⟨rfl, rfl⟩ := hsome
  have hhw := hw_eq_pow t (p.getLastD 0) hvalid.2.1 hlevlt
  refine ⟨rfl, rfl, ?_, ?_⟩
  · apply List.Nodup.erase
    rw [← List.foldl_map (fun off => t.indexRaw
      (List.zipWith (· + ·) p.dropLast off ++ [p.getLastD 0 + 1])) Tree.addInd]
    exact foldl_addInd_nodup _ _ hnd
  · have hfnd : ((t.refineOffsets (t.levelWidth (p.getLastD 0) / 2)).foldl
        (fun l off => Tree.addInd l (t.indexRaw
          (List.zipWith (· + ·) p.dropLast off ++ [p.getLastD 0 + 1])))
        t.treeInds).Nodup := by
      rw [← List.foldl_map (fun off => t.indexRaw
        (List.zipWith (· + ·) p.dropLast off ++ [p.getLastD 0 + 1])) Tree.addInd]
      exact foldl_addInd_nodup _ _ hnd
    have htf : (((t.refineOffsets (t.levelWidth (p.getLastD 0) / 2)).foldl
        (fun l off => Tree.addInd l (t.indexRaw
          (List.zipWith (· + ·) p.dropLast off ++ [p.getLastD 0 + 1])))
        t.treeInds)).toFinset =
        t.treeInds.toFinset ∪ t.specChildSet p := by
      rw [← List.foldl_map (fun off => t.indexRaw
        (List.zipWith (· + ·) p.dropLast off ++ [p.getLastD 0 + 1])) Tree.addInd,
        foldl_addInd_toFinset, map_toFinset_image,
        refineOffsets_toFinset t hdim, hhw]
      rfl
    have hnotmem : t.indexRaw p ∉ t.specChildSet p := by
      unfold Tree.specChildSet
      rw [Finset.mem_image]
      rintro ⟨off, hoff, hoffeq⟩
      obtain ⟨hofflen, hoffmem⟩ := (mem_listProd_replicate _ _ off).mp hoff
      have hoffmem2 : ∀ x ∈ off, x = 0 ∨
          x = 2 ^ (((t.levels : ℤ) - p.getLastD 0 - 1).toNat) := by
        intro x hx
        have := hoffmem x hx
        rwa [Finset.mem_insert, Finset.mem_singleton] at this
      have hq := (child_pointer_props t p off hdim0 hL20 hvalid hlevlt
        hofflen hoffmem2).2
      have hq2 : t.pointer (t.indexRaw p) =
          List.zipWith (· + ·) p.dropLast off ++ [p.getLastD 0 + 1] := by
        rw [← hoffeq]
        exact hq
      rw [pointer_roundtrip_of_valid t p hdim0 hL20 hvalid] at hq2
      have hlast : p.getLastD 0 = (List.zipWith (· + ·) p.dropLast off ++
          [p.getLastD 0 + 1]).getLastD 0 := by rw [← hq2]
      rw [getLastD_concat] at hlast
      omega
    ext x
    rw [List.mem_toFinset, hfnd.mem_erase_iff, ← List.mem_toFinset, htf]
    rw [Finset.mem_union, Finset.mem_union, Finset.mem_erase]
    constructor
    · rintro ⟨hne, hin | hin⟩
      · exact Or.inl ⟨hne, hin⟩
      · exact Or.inr hin
    · rintro (⟨hne, hin⟩ | hin)
      · exact ⟨hne, Or.inl hin⟩
      · refine ⟨?_, Or.inr hin⟩
        rintro rfl
        exact hnotmem hin

theorem tree_pointer_congr (t1 t2 : Tree) (hh : t1.h = t2.h)
    (hl : t1.levels = t2.levels) : ∀ i, t1.pointer i = t2.pointer i := by
  intro i
  unfold Tree.pointer ZCurve.point Tree.dim Tree.levelBits Tree.ceilSqrt
  rw [hh, hl]

theorem tree_region_congr (t1 t2 : Tree) (hl : t1.levels = t2.levels) :
    ∀ p, t1.region p = t2.region p := by
  intro p
  unfold Tree.region Tree.levelWidth
  rw [hl]

theorem tree_fullGrid_congr (t1 t2 : Tree) (hh : t1.h = t2.h)
    (hl : t1.levels = t2.levels) : t1.fullGrid = t2.fullGrid := by
  unfold Tree.fullGrid
  rw [hh, hl]

theorem tree_valid_congr (t1 t2 : Tree) (hh : t1.h = t2.h)
    (hl : t1.levels = t2.levels) : ∀ p, t1.ValidPtr p ↔ t2.ValidPtr p := by
  intro p
  unfold Tree.ValidPtr Tree.dim Tree.levelWidth
  rw [hh, hl]

theorem refineCell_inv (t : Tree) (p : List ℤ) (t' : Tree) (added : List ℤ)
    (hdim : t.dim = 2 ∨ t.dim = 3) (hL20 : t.levels ≤ 20)
    (hinv : t.Inv) (hvp : t.ValidPtr p)
    (hsome : t.refineCell p = some (t', added)) :
    t'.Inv ∧ t'.h = t.h ∧ t'.levels = t.levels := by
  have hdim0 : 0 < t.dim := by rcases hdim with h | h <;> omega
  obtain ⟨hplen, hlev, hmemr⟩ := refineCell_success_shape t p _ hsome
  have hlevlt : p.getLastD 0 < (t.levels : ℤ) := by
    rcases lt_or_eq_of_le hlev with hlt | heq
    · exact hlt
    · rw [refineCell_none_of_top t p hplen heq] at hsome
      cases hsome
  obtain ⟨hnd, hvalidall, hdisj, hcover⟩ := hinv
  obtain ⟨hh', hl', hnd', hfin⟩ :=
    refineCell_finset t p t' added hdim hL20 hvp hlevlt hmemr hnd hsome
  have hpt := tree_pointer_congr t' t hh' hl'
  have hrg := tree_region_congr t' t hl'
  have hfg := tree_fullGrid_congr t' t hh' hl'
  have hvp' := tree_valid_congr t' t hh' hl'
  have hback : t.pointer (t.indexRaw p) = p :=
    pointer_roundtrip_of_valid t p hdim0 hL20 hvp
  -- the per-child facts
  have hchild : ∀ off ∈ listProd (List.replicate t.dim
      ({0, 2 ^ (((t.levels : ℤ) - p.getLastD 0 - 1).toNat)} : Finset ℤ)),
      t.pointer (t.indexRaw (List.zipWith (· + ·) p.dropLast off ++
        [p.getLastD 0 + 1])) =
          List.zipWith (· + ·) p.dropLast off ++ [p.getLastD 0 + 1] ∧
        t.ValidPtr (List.zipWith (· + ·) p.dropLast off ++
          [p.getLastD 0 + 1]) ∧
        t.region (List.zipWith (· + ·) p.dropLast off ++
          [p.getLastD 0 + 1]) ⊆ t.region p := by
    intro off hoff
    obtain ⟨hofflen, hoffmem⟩ := (mem_listProd_replicate _ _ off).mp hoff
    have hoffmem2 : ∀ x ∈ off, x = 0 ∨
        x = 2 ^ (((t.levels : ℤ) - p.getLastD 0 - 1).toNat) := by
      intro x hx
      have := hoffmem x hx
      rwa [Finset.mem_insert, Finset.mem_singleton] at this
    exact ⟨(child_pointer_props t p off hdim0 hL20 hvp hlevlt hofflen
        hoffmem2).2,
      child_valid t p off hvp hlevlt hofflen hoffmem2,
      region_child_subset t p off hvp hlevlt hofflen hoffmem2⟩
  -- membership characterisation of the new cell set
  have hchar : ∀ x, x ∈ t'.treeInds ↔
      ((x ∈ t.treeInds ∧ x ≠ t.indexRaw p) ∨ x ∈ t.specChildSet p) := by
    intro x
    rw [← List.mem_toFinset, hfin, Finset.mem_union, Finset.mem_erase,
      List.mem_toFinset]
    constructor
    · rintro (⟨hne, hm⟩ | hm)
      · exact Or.inl ⟨hm, hne⟩
      · exact Or.inr hm
    · rintro (⟨hm, hne⟩ | hm)
      · exact Or.inl ⟨hne, hm⟩
      · exact Or.inr hm
  refine ⟨⟨hnd', ?_, ?_, ?_⟩, hh', hl'⟩
  · -- every live index decodes to a valid pointer
    intro ind hind
    rw [hvp' _, hpt ind]
    rcases (hchar ind).mp hind with ⟨hm, _⟩ | hm
    · exact hvalidall ind hm
    · unfold Tree.specChildSet at hm
      rw [Finset.mem_image] at hm
      obtain ⟨off, hoff, rfl⟩ := hm
      obtain ⟨hpe, hvv, _⟩ := hchild off hoff
      rw [hpe]
      exact hvv
  · -- pairwise disjoint regions
    intro i1 h1 i2 h2 hne
    rw [hrg _, hrg _, hpt i1, hpt i2]
    have hd1 := (hchar i1).mp h1
    have hd2 := (hchar i2).mp h2
    have hchildD : ∀ j, j ∈ t.specChildSet p →
        t.region (t.pointer j) ⊆ t.region p := by
      intro j hj
      unfold Tree.specChildSet at hj
      rw [Finset.mem_image] at hj
      obtain ⟨off, hoff, rfl⟩ := hj
      obtain ⟨hpe, _, hsub⟩ := hchild off hoff
      rw [hpe]
      exact hsub
    have holdD : ∀ j, j ∈ t.treeInds → j ≠ t.indexRaw p →
        Disjoint (t.region (t.pointer j)) (t.region p) := by
      intro j hj hjne
      have := hdisj j hj (t.indexRaw p) hmemr hjne
      rwa [hback] at this
    rcases hd1 with ⟨hm1, hne1⟩ | hm1 <;> rcases hd2 with ⟨hm2, hne2⟩ | hm2
    · exact hdisj i1 hm1 i2 hm2 hne
    · exact Finset.disjoint_of_subset_right (hchildD i2 hm2) (holdD i1 hm1 hne1)
    · exact Finset.disjoint_of_subset_left (hchildD i1 hm1)
        ((holdD i2 hm2 hne2).symm)
    · -- two distinct children
      unfold Tree.specChildSet at hm1 hm2
      rw [Finset.mem_image] at hm1 hm2
      obtain ⟨off1, hoff1, rfl⟩ := hm1
      obtain ⟨off2, hoff2, rfl⟩ := hm2
      obtain ⟨hofflen1, hoffmem1⟩ := (mem_listProd_replicate _ _ off1).mp hoff1
      obtain ⟨hofflen2, hoffmem2⟩ := (mem_listProd_replicate _ _ off2).mp hoff2
      have hoffmem1' : ∀ x ∈ off1, x = 0 ∨
          x = 2 ^ (((t.levels : ℤ) - p.getLastD 0 - 1).toNat) := by
        intro x hx
        have := hoffmem1 x hx
        rwa [Finset.mem_insert, Finset.mem_singleton] at this
      have hoffmem2' : ∀ x ∈ off2, x = 0 ∨
          x = 2 ^ (((t.levels : ℤ) - p.getLastD 0 - 1).toNat) := by
        intro x hx
        have := hoffmem2 x hx
        rwa [Finset.mem_insert, Finset.mem_singleton] at this
      rw [(hchild off1 hoff1).1, (hchild off2 hoff2).1]
      apply region_children_disjoint t p off1 off2 hvp hlevlt hofflen1
        hofflen2 hoffmem1' hoffmem2'
      rintro rfl
      exact hne rfl
  · -- the regions cover the grid
    have hshow : t'.treeInds.toFinset.biUnion
        (fun ind => t'.region (t'.pointer ind)) =
        t'.treeInds.toFinset.biUnion
          (fun ind => t.region (t.pointer ind)) := by
      apply Finset.biUnion_congr rfl
      intro ind _
      rw [hrg _, hpt ind]
    rw [hshow, hfg, hfin, biUnion_union_split]
    have hchB : (t.specChildSet p).biUnion
        (fun ind => t.region (t.pointer ind)) = t.region p := by
      unfold Tree.specChildSet
      rw [Finset.image_biUnion]
      rw [region_parent_eq t p hvp hlevlt]
      apply Finset.biUnion_congr rfl
      intro off hoff
      rw [(hchild off hoff).1]
    rw [hchB]
    have hsplit : t.treeInds.toFinset =
        insert (t.indexRaw p) (t.treeInds.toFinset.erase (t.indexRaw p)) :=
      (Finset.insert_erase (List.mem_toFinset.mpr hmemr)).symm
    rw [hsplit, Finset.biUnion_insert, hback] at hcover
    rw [← hcover]
    rw [Finset.union_comm]

theorem foldlM_invP {α β : Type} (P : β → Prop) (f : β → α → Option β)
    (hstep : ∀ b a b', P b → f b a = some b' → P b') :
    ∀ (l : List α) (b0 b1 : β), List.foldlM f b0 l = some b1 → P b0 → P b1 := by
  intro l
  induction l with
  | nil =>
    intro b0 b1 h hp
    simp only [List.foldlM_nil, Option.pure_def, Option.some.injEq] at h
    subst h
    exact hp
  | cons a rest ih =>
    intro b0 b1 h hp
    rw [List.foldlM_cons] at h
    cases hb : f b0 a with
    | none => rw [hb, opt_none_bind] at h; cases h
    | some b =>
      rw [hb, opt_some_bind] at h
      exact ih b b1 h (hstep b0 a b hp hb)

theorem refinePass_inv (t : Tree) (f : List ℚ → ℚ) (cells : List ℤ)
    (t' : Tree) (lst : List ℤ)
    (hdim : t.dim = 2 ∨ t.dim = 3) (hL20 : t.levels ≤ 20) (hinv : t.Inv)
    (h : t.refinePass f cells = some (t', lst)) :
    t'.Inv ∧ t'.h = t.h ∧ t'.levels = t.levels := by
  unfold Tree.refinePass at h
  refine foldlM_invP (fun (acc : Tree × List ℤ) =>
      acc.1.Inv ∧ acc.1.h = t.h ∧ acc.1.levels = t.levels)
    _ ?_ cells (t, ([] : List ℤ)) (t', lst) h ⟨hinv, rfl, rfl⟩
  intro acc cell acc' hP hstep
  obtain ⟨hPi, hPh, hPl⟩ := hP
  simp only [] at hstep
  split_ifs at hstep with hcond
  · cases hrc : acc.1.refineCell (acc.1.pointer cell) with
    | none => rw [hrc] at hstep; cases hstep
    | some r =>
      rw [hrc, Option.map_some'] at hstep
      simp only [Option.some.injEq] at hstep
      subst hstep
      have hdim' : acc.1.dim = 2 ∨ acc.1.dim = 3 := by
        unfold Tree.dim
        rw [hPh]
        exact hdim
      have hL20' : acc.1.levels ≤ 20 := by rw [hPl]; exact hL20
      have hd0 : 0 < acc.1.dim := by rcases hdim' with hx | hx <;> omega
      have hvalidp : acc.1.ValidPtr (acc.1.pointer cell) :=
        refineCell_pointer_valid acc.1 cell r hd0 hPi.2.1 hrc
      obtain ⟨hI, hh, hl⟩ := refineCell_inv acc.1 (acc.1.pointer cell) r.1 r.2
        hdim' hL20' hPi hvalidp (by rw [hrc])
      exact ⟨hI, by rw [hh, hPh], by rw [hl, hPl]⟩
  · simp only [Option.pure_def, Option.some.injEq] at hstep
    subst hstep
    exact ⟨hPi, hPh, hPl⟩

theorem refine_inv (fuel : ℕ) :
    ∀ (t : Tree) (f : List ℚ → ℚ) (recursive : Bool)
      (cells : Option (List ℤ)) (t' : Tree) (lst : List ℤ),
      (t.dim = 2 ∨ t.dim = 3) → t.levels ≤ 20 → t.Inv →
      t.refine fuel f recursive cells = some (t', lst) →
      t'.Inv ∧ t'.h = t.h ∧ t'.levels = t.levels := by
  induction fuel with
  | zero => intro t f rec cells t' lst _ _ _ h; cases h
  | succ fuel ih =>
    intro t f rec cells t' lst hdim hL20 hinv h
    unfold Tree.refine at h
    simp only [] at h
    rcases hp : t.refinePass f
        (cells.getD (List.insertionSort (· ≤ ·) t.treeInds)) with _ | ⟨t1, rec1⟩
    · rw [hp] at h
      exact absurd h (by simp)
    · rw [hp, opt_some_bind] at h
      simp only [] at h
      obtain ⟨hI1, hh1, hl1⟩ := refinePass_inv t f _ t1 rec1 hdim hL20 hinv hp
      by_cases hc : (rec = true) ∧ rec1 ≠ []
      · rw [if_pos hc] at h
        rcases hr : t1.refine fuel f true (some rec1) with _ | ⟨t2, l2⟩
        · rw [hr] at h
          exact absurd h (by simp)
        · rw [hr, opt_some_bind] at h
          simp only [] at h
          have h2 : ((t2, rec1) : Tree × List ℤ) = (t', lst) := Option.some.inj h
          injection h2 with ha hb
          subst ha
          have hdim1 : t1.dim = 2 ∨ t1.dim = 3 := by
            unfold Tree.dim
            rw [hh1]
            exact hdim
          have hL1 : t1.levels ≤ 20 := by rw [hl1]; exact hL20
          obtain ⟨hI2, hh2, hl2⟩ := ih t1 f true (some rec1) t2 l2 hdim1 hL1
            hI1 hr
          exact ⟨hI2, by rw [hh2, hh1], by rw [hl2, hl1]⟩
      · rw [if_neg hc] at h
        have h2 : ((t1, rec1) : Tree × List ℤ) = (t', lst) := Option.some.inj h
        injection h2 with ha hb
        subst ha
        exact ⟨hI1, hh1, hl1⟩

theorem set_replicate_zero : ∀ (n k : ℕ),
    (List.replicate n (0:ℕ)).set k 0 = List.replicate n 0
  | 0, _ => rfl
  | n + 1, 0 => by rw [List.replicate_succ, List.set_cons_zero]
  | n + 1, k + 1 => by
      rw [List.replicate_succ, List.set_cons_succ, set_replicate_zero n k,
        ← List.replicate_succ]

theorem pointAux_zero (d bits : ℕ) :
    ∀ i, ZCurve.pointAux d bits 0 i = List.replicate d 0 := by
  intro i
  induction i with
  | zero => rfl
  | succ i ih =>
    rw [show ZCurve.pointAux d bits 0 (i + 1) =
      (ZCurve.pointAux d bits 0 i).set (i % d)
        ((ZCurve.pointAux d bits 0 i).getD (i % d) 0 |||
          ((ZCurve.bitrange 0 (bits * d) i (i + 1)).toNat <<<
            ((bits * d - i - 1) / d))) from rfl]
    have hb : ZCurve.bitrange 0 (bits * d) i (i + 1) = 0 := by
      unfold ZCurve.bitrange
      simp
    rw [hb, ih]
    simp only [Int.toNat_zero, Nat.zero_shiftLeft, Nat.or_zero]
    by_cases hlt : i % d < d
    · rw [show (List.replicate d 0).getD (i % d) 0 = 0 by
        rw [List.getD_eq_getElem _ _ (by simpa using hlt),
          List.getElem_replicate]]
      exact set_replicate_zero d (i % d)
    · rw [List.getD_eq_default _ _ (by simpa using hlt)]
      exact set_replicate_zero d (i % d)

theorem point_zero (d bits : ℕ) :
    ZCurve.point d bits 0 = List.replicate d 0 := by
  unfold ZCurve.point
  rw [pointAux_zero, List.map_replicate, List.reverse_replicate]
  rfl

theorem root_pointer (t : Tree) : t.pointer 0 = List.replicate t.dim 0 ++ [0] := by
  unfold Tree.pointer
  simp only []
  rw [Int.zero_ediv, Int.zero_emod, point_zero]

theorem getD_replicate_int (n i : ℕ) (c d : ℤ) (h : i < n) :
    (List.replicate n c).getD i d = c := by
  rw [List.getD_eq_getElem _ _ (by simpa using h), List.getElem_replicate]

theorem root_inv (h : List (List ℚ)) (levels : ℕ) (hd : 0 < h.length) :
    Tree.Inv { h := h, levels := levels, treeInds := [0] } := by
  set t : Tree := { h := h, levels := levels, treeInds := [0] } with ht
  have hroot := root_pointer t
  have hW : t.levelWidth 0 = 2 ^ t.levels := by
    unfold Tree.levelWidth
    norm_num
  refine ⟨by simp [ht], ?_, ?_, ?_⟩
  · intro ind hind
    rw [show t.treeInds = [0] from rfl, List.mem_singleton] at hind
    subst hind
    rw [hroot]
    refine ⟨?_, ?_, ?_, ?_⟩
    · rw [List.length_append, List.length_replicate]
      simp
    · rw [getLastD_concat]
    · rw [getLastD_concat]
      positivity
    · rw [List.dropLast_concat, getLastD_concat]
      intro x hx
      rw [List.eq_of_mem_replicate hx]
      exact ⟨le_refl 0, by positivity, dvd_zero _⟩
  · intro i1 h1 i2 h2 hne
    rw [show t.treeInds = [0] from rfl, List.mem_singleton] at h1 h2
    subst h1
    subst h2
    exact absurd rfl hne
  · rw [show t.treeInds = [0] from rfl]
    rw [show ([(0:ℤ)]).toFinset = {0} from rfl, Finset.singleton_biUnion, hroot]
    ext q
    rw [mem_region_iff, mem_fullGrid_iff, List.dropLast_concat, getLastD_concat]
    rw [List.length_replicate, hW]
    constructor
    · rintro ⟨hlen, hb⟩
      refine ⟨hlen, ?_⟩
      intro x hx
      obtain ⟨i, hi, rfl⟩ := List.getElem_of_mem hx
      have hbi := hb i (by omega)
      rw [getD_replicate_int _ _ _ _ (by omega),
        List.getD_eq_getElem _ _ hi] at hbi
      constructor <;> omega
    · rintro ⟨hlen, hmem⟩
      refine ⟨hlen, ?_⟩
      intro i hi
      rw [getD_replicate_int _ _ _ _ (by omega)]
      have hqi : q.getD i 0 ∈ q := by
        rw [List.getD_eq_getElem _ _ (by omega)]
        exact List.getElem_mem (by omega)
      have := hmem _ hqi
      constructor <;> omega

theorem reachable_inv (h : List (List ℚ)) (levels : ℕ) (t : Tree)
    (hdim : h.length = 2 ∨ h.length = 3) (hL20 : levels ≤ 20)
    (hreach : Tree.Reachable h levels t) :
    t.Inv ∧ t.h = h ∧ t.levels = levels := by
  induction hreach with
  | init =>
    exact ⟨root_inv h levels (by rcases hdim with h' | h' <;> omega), rfl, rfl⟩
  | stepCell t1 t2 p added hr hvp hsome ih =>
    obtain ⟨hI, hh, hl⟩ := ih
    have hdim1 : t1.dim = 2 ∨ t1.dim = 3 := by
      unfold Tree.dim
      rw [hh]
      exact hdim
    have hL1 : t1.levels ≤ 20 := by rw [hl]; exact hL20
    obtain ⟨hI2, hh2, hl2⟩ := refineCell_inv t1 p t2 added hdim1 hL1 hI hvp hsome
    exact ⟨hI2, by rw [hh2, hh], by rw [hl2, hl]⟩
  | stepRefine t1 t2 fuel f rec cells lst hr hsome ih =>
    obtain ⟨hI, hh, hl⟩ := ih
    have hdim1 : t1.dim = 2 ∨ t1.dim = 3 := by
      unfold Tree.dim
      rw [hh]
      exact hdim
    have hL1 : t1.levels ≤ 20 := by rw [hl]; exact hL20
    obtain ⟨hI2, hh2, hl2⟩ := refine_inv fuel t1 f rec cells t2 lst hdim1 hL1
      hI hsome
    exact ⟨hI2, by rw [hh2, hh], by rw [hl2, hl]⟩

theorem take_drop_sum (hk : List ℚ) (n : ℕ) :
    ∀ k, ((hk.drop n).take k).sum = ∑ i ∈ Finset.range k, hk.getD (n + i) 0 := by
  intro k
  induction k with
  | zero => simp
  | succ k ih =>
    rw [List.take_succ, List.sum_append, ih, Finset.sum_range_succ]
    congr 1
    rw [List.getElem?_drop]
    have hgd : hk.getD (n + k) 0 = (hk[n + k]?).getD 0 := by
      rw [List.getD_eq_getElem?_getD]
    rw [hgd]
    cases hg : hk[n + k]? with
    | none => simp
    | some a => simp

theorem slice_sum_eq_Ico (hk : List ℚ) (x w : ℤ) (hx : 0 ≤ x) (hw : 0 ≤ w) :
    ((hk.drop x.toNat).take w.toNat).sum =
      ∑ i ∈ Finset.Ico x (x + w), hval hk i := by
  rw [take_drop_sum]
  have hmap : Finset.Ico x (x + w) =
      (Finset.range w.toNat).image (fun j : ℕ => x + (j : ℤ)) := by
    ext i
    rw [Finset.mem_Ico, Finset.mem_image]
    constructor
    · rintro ⟨h1, h2⟩
      exact ⟨(i - x).toNat, by rw [Finset.mem_range]; omega, by omega⟩
    · rintro ⟨j, hj, rfl⟩
      rw [Finset.mem_range] at hj
      omega
  rw [hmap, Finset.sum_image (by intro a _ b _ hab; omega)]
  apply Finset.sum_congr rfl
  intro j hj
  unfold hval
  rw [if_pos (by positivity)]
  congr 1
  omega

theorem listProd_sum_weight :
    ∀ (h : List (List ℚ)) (boxes : List (Finset ℤ)), h.length = boxes.length →
      ∑ q ∈ listProd boxes, (List.zipWith hval h q).prod
        = (List.zipWith (fun hk s => ∑ i ∈ s, hval hk i) h boxes).prod := by
  intro h
  induction h with
  | nil =>
    intro boxes hb
    rw [List.length_nil] at hb
    obtain rfl : boxes = [] := List.length_eq_zero.mp hb.symm
    simp [listProd]
  | cons hk hs ih =>
    intro boxes hb
    match boxes with
    | s :: ss =>
      rw [List.length_cons, List.length_cons] at hb
      simp only [listProd, List.zipWith_cons_cons, List.prod_cons]
      rw [Finset.sum_image (by
        rintro ⟨a1, q1⟩ h1 ⟨a2, q2⟩ h2 heq
        simp only [List.cons.injEq] at heq
        simp [heq.1, heq.2])]
      rw [Finset.sum_product]
      rw [Finset.sum_congr rfl (fun a _ => by
        rw [show (∑ q ∈ listProd ss,
            (List.zipWith hval (hk :: hs) (a :: q)).prod)
            = hval hk a * ∑ q ∈ listProd ss,
              (List.zipWith hval hs q).prod by
          rw [Finset.mul_sum]
          apply Finset.sum_congr rfl
          intro q _
          rw [List.zipWith_cons_cons, List.prod_cons]])]
      rw [← Finset.sum_mul, ih ss (by omega)]

theorem zipWith_congr_right {α β γ : Type} (f g : α → β → γ) :
    ∀ (l1 : List α) (l2 : List β), (∀ b ∈ l2, ∀ a, f a b = g a b) →
      List.zipWith f l1 l2 = List.zipWith g l1 l2 := by
  intro l1
  induction l1 with
  | nil => intro l2 _; simp
  | cons a l1 ih =>
    intro l2 hc
    match l2 with
    | [] => simp
    | b :: l2 =>
      rw [List.zipWith_cons_cons, List.zipWith_cons_cons,
        hc b (List.mem_cons_self b l2) a,
        ih l2 (fun b' hb' a' => hc b' (List.mem_cons_of_mem b hb') a')]

theorem cellH_prod (t : Tree) (p : List ℤ) (hvalid : t.ValidPtr p) :
    (t.cellH p).prod = ∑ q ∈ t.region p, weightQ t.h q := by
  obtain ⟨hplen, hpl0, hpll, hpc⟩ := hvalid
  have hdlen : p.dropLast.length = t.dim := by
    rw [List.length_dropLast, hplen]; omega
  unfold Tree.cellH Tree.region weightQ
  simp only []
  rw [listProd_sum_weight t.h _ (by rw [List.length_map, hdlen]; rfl)]
  rw [List.zipWith_map_right]
  apply congrArg List.prod
  apply zipWith_congr_right
  intro c hc a
  exact slice_sum_eq_Ico a c (t.levelWidth (p.getLastD 0)) (hpc c hc).1
    (by unfold Tree.levelWidth; positivity)

theorem fullGrid_sum (t : Tree) (hlen : ∀ hk ∈ t.h, hk.length = 2 ^ t.levels) :
    ∑ q ∈ t.fullGrid, weightQ t.h q = (t.h.map List.sum).prod := by
  unfold Tree.fullGrid weightQ
  rw [listProd_sum_weight t.h _ (by rw [List.length_map])]
  rw [List.zipWith_map_right, List.zipWith_same]
  congr 1
  apply List.map_congr_left
  intro hk hmem
  have htn : ((2:ℤ) ^ t.levels).toNat = 2 ^ t.levels := by
    rw [show ((2:ℤ) ^ t.levels) = ((2 ^ t.levels : ℕ) : ℤ) by norm_cast,
      Int.toNat_natCast]
  have hs := slice_sum_eq_Ico hk 0 ((2:ℤ) ^ t.levels) le_rfl (by positivity)
  rw [zero_add] at hs
  rw [← hs]
  simp only [Int.toNat_zero, List.drop_zero]
  rw [List.take_of_length_le (le_of_eq (by rw [hlen hk hmem, htn]))]

theorem inv_vol_sum (t : Tree) (hinv : t.Inv)
    (hlen : ∀ hk ∈ t.h, hk.length = 2 ^ t.levels) :
    (t.treeInds.map (fun ind => (t.cellH (t.pointer ind)).prod)).sum
      = (t.h.map List.sum).prod := by
  obtain ⟨hnd, hvalidall, hdisj, hcover⟩ := hinv
  rw [← List.sum_toFinset _ hnd]
  rw [Finset.sum_congr rfl (fun ind hind =>
    cellH_prod t (t.pointer ind) (hvalidall ind (List.mem_toFinset.mp hind)))]
  rw [← Finset.sum_biUnion (by
    intro x hx y hy hxy
    exact hdisj x (by simpa using hx) y (by simpa using hy) hxy)]
  rw [hcover]
  exact fullGrid_sum t hlen

/-! ## Claim 3: the divergence assembler -/

theorem sum_if_count (l : List ℤ) (off pm j : ℤ) :
    (l.map (fun f => if off + f = j then pm else 0)).sum
      = pm * (l.countP (fun f => off + f = j) : ℤ) := by
  induction l with
  | nil => simp
  | cons a l ih =>
    simp only [List.map_cons, List.sum_cons, ih, List.countP_cons]
    by_cases hc : off + a = j
    · rw [if_pos hc, decide_eq_true hc]
      simp only [if_pos rfl]
      push_cast
      ring
    · simp [hc]

theorem zip3_flatMap_sum (ii : ℕ) (j : ℤ) :
    ∀ (faces : List (List ℤ)) (offs : List ℕ) (pms : List ℤ),
      faces.length ≤ offs.length → faces.length ≤ pms.length →
      (((zip3 offs pms faces).flatMap
            (fun x => x.2.2.map (fun f => (ii, (x.1 : ℤ) + f, x.2.1)))).map
          (fun tr => if tr.2.1 = j then tr.2.2 else 0)).sum
        = ∑ dir ∈ Finset.range faces.length,
            pms.getD dir 0 *
              ((faces.getD dir []).countP
                (fun f => ((offs.getD dir 0 : ℕ) : ℤ) + f = j) : ℤ) := by
  intro faces
  induction faces with
  | nil => intro offs pms _ _; cases offs <;> cases pms <;> simp [zip3]
  | cons fa fs ih =>
    intro offs pms hof hpm
    cases offs with
    | nil => simp at hof
    | cons o os =>
      cases pms with
      | nil => simp at hpm
      | cons pv ps =>
        simp only [zip3, List.flatMap_cons, List.map_append, List.sum_append,
          List.length_cons]
        rw [Finset.sum_range_succ']
        simp only [List.getD_cons_succ, List.getD_cons_zero]
        rw [List.map_map]
        have h1 : ((fa.map (fun f => if (o : ℤ) + f = j then pv else 0)).sum)
            = pv * (fa.countP (fun f => (o : ℤ) + f = j) : ℤ) :=
          sum_if_count fa o pv j
        have h2 := ih os ps (by simpa using hof) (by simpa using hpm)
        calc ((fa.map ((fun tr : ℕ × ℤ × ℤ => if tr.2.1 = j then tr.2.2 else 0) ∘
                (fun f => (ii, (o : ℤ) + f, pv)))).sum)
              + (((zip3 os ps fs).flatMap
                  (fun x => x.2.2.map (fun f => (ii, (x.1 : ℤ) + f, x.2.1)))).map
                (fun tr => if tr.2.1 = j then tr.2.2 else 0)).sum
            = pv * (fa.countP (fun f => (o : ℤ) + f = j) : ℤ)
              + ∑ dir ∈ Finset.range fs.length,
                  ps.getD dir 0 *
                    ((fs.getD dir []).countP
                      (fun f => ((os.getD dir 0 : ℕ) : ℤ) + f = j) : ℤ) := by
              rw [h2]
              have h1' : ((fa.map ((fun tr : ℕ × ℤ × ℤ =>
                  if tr.2.1 = j then tr.2.2 else 0) ∘
                  (fun f => (ii, (o : ℤ) + f, pv)))).sum)
                  = pv * (fa.countP (fun f => (o : ℤ) + f = j) : ℤ) := h1
              rw [h1']
          _ = (∑ dir ∈ Finset.range fs.length,
                  ps.getD dir 0 *
                    ((fs.getD dir []).countP
                      (fun f => ((os.getD dir 0 : ℕ) : ℤ) + f = j) : ℤ))
              + pv * (fa.countP (fun f => (o : ℤ) + f = j) : ℤ) := by ring

theorem cellTriplets_sum (dim : ℕ) (m : Tree.NumberOut) (ii : ℕ) (ind : ℤ)
    (j : ℤ) (hd : dim = 2 ∨ dim = 3)
    (hlen : (NumState.c2fGet dim m.c2f ind).length = 2 * dim) :
    ((cellTriplets dim m ii ind).map
        (fun tr => if tr.2.1 = j then tr.2.2 else 0)).sum
      = ∑ dir ∈ Finset.range (2 * dim),
          specSign dir *
            (((NumState.c2fGet dim m.c2f ind).getD dir []).countP
              (fun f => (specOffset m dir : ℤ) + f = j) : ℤ) := by
  unfold cellTriplets
  rw [zip3_flatMap_sum ii j (NumState.c2fGet dim m.c2f ind) (offsetList m)
    (PM dim)
    (by rw [hlen]; rcases hd with h | h <;> simp [offsetList, h])
    (by rw [hlen]; rcases hd with h | h <;> simp [PM, h])]
  rw [hlen]
  apply Finset.sum_congr rfl
  intro dir hdir
  rw [Finset.mem_range] at hdir
  have hsign : (PM dim).getD dir 0 = specSign dir := by
    rcases hd with h | h <;> subst h <;> interval_cases dir <;> rfl
  rw [hsign]
  rfl

theorem cellTriplets_fst (dim : ℕ) (m : Tree.NumberOut) (ii : ℕ) (ind : ℤ) :
    ∀ tr ∈ cellTriplets dim m ii ind, tr.1 = ii := by
  intro tr htr
  unfold cellTriplets at htr
  rw [List.mem_flatMap] at htr
  obtain ⟨x, _, hx⟩ := htr
  rw [List.mem_map] at hx
  obtain ⟨f, _, rfl⟩ := hx
  rfl

theorem divTriplets_fst_ge (dim : ℕ) (m : Tree.NumberOut) :
    ∀ (inds : List ℤ) (start : ℕ) (tr : ℕ × ℤ × ℤ),
      tr ∈ divTriplets dim m start inds → start ≤ tr.1 := by
  intro inds
  induction inds with
  | nil => intro start tr htr; simp [divTriplets] at htr
  | cons a rest ih =>
    intro start tr htr
    unfold divTriplets at htr
    rw [List.mem_append] at htr
    rcases htr with h1 | h2
    · rw [cellTriplets_fst dim m start a tr h1]
    · have := ih (start + 1) tr h2
      omega

theorem divTriplets_row (dim : ℕ) (m : Tree.NumberOut) (j : ℤ) :
    ∀ (inds : List ℤ) (start i : ℕ),
      ((divTriplets dim m start inds).map
          (fun tr => if tr.1 = start + i ∧ tr.2.1 = j then tr.2.2 else 0)).sum
        = if i < inds.length then
            ((cellTriplets dim m (start + i) (inds.getD i 0)).map
                (fun tr => if tr.2.1 = j then tr.2.2 else 0)).sum
          else 0 := by
  intro inds
  induction inds with
  | nil => intro start i; simp [divTriplets]
  | cons a rest ih =>
    intro start i
    unfold divTriplets
    rw [List.map_append, List.sum_append]
    cases i with
    | zero =>
      have hz : ((divTriplets dim m (start + 1) rest).map
          (fun tr => if tr.1 = start + 0 ∧ tr.2.1 = j then tr.2.2 else 0)).sum
          = 0 := by
        apply List.sum_eq_zero
        intro x hx
        rw [List.mem_map] at hx
        obtain ⟨tr, htr, rfl⟩ := hx
        have := divTriplets_fst_ge dim m rest (start + 1) tr htr
        rw [if_neg]
        rintro ⟨h1, _⟩
        omega
      rw [hz, add_zero]
      have hco : ∀ tr ∈ cellTriplets dim m start a,
          (if tr.1 = start + 0 ∧ tr.2.1 = j then tr.2.2 else 0) =
          (if tr.2.1 = j then tr.2.2 else 0) := by
        intro tr htr
        rw [cellTriplets_fst dim m start a tr htr]
        simp
      rw [List.map_congr_left hco]
      simp
    | succ i' =>
      have hz : ((cellTriplets dim m start a).map
          (fun tr => if tr.1 = start + (i' + 1) ∧ tr.2.1 = j then tr.2.2 else 0)).sum
          = 0 := by
        apply List.sum_eq_zero
        intro x hx
        rw [List.mem_map] at hx
        obtain ⟨tr, htr, rfl⟩ := hx
        rw [cellTriplets_fst dim m start a tr htr, if_neg]
        rintro ⟨h1, _⟩
        omega
      rw [hz, zero_add]
      have hs : start + (i' + 1) = (start + 1) + i' := by omega
      rw [hs, ih (start + 1) i']
      simp only [List.length_cons, List.getD_cons_succ, Nat.add_lt_add_iff_right]

theorem Dmat_eq_specD (dim : ℕ) (m : Tree.NumberOut) (i : ℕ) (j : ℤ)
    (hd : dim = 2 ∨ dim = 3)
    (hlen : ∀ ind ∈ m.sortedInds,
      (NumState.c2fGet dim m.c2f ind).length = 2 * dim) :
    Dmat dim m i j = specD dim m i j := by
  have hrow := divTriplets_row dim m j m.sortedInds 0 i
  simp only [Nat.zero_add] at hrow
  unfold Dmat specD
  rw [hrow]
  by_cases hi : i < m.sortedInds.length
  · rw [if_pos hi, if_pos hi]
    refine cellTriplets_sum dim m i _ j hd (hlen _ ?_)
    rw [List.getD_eq_getElem m.sortedInds 0 hi]
    exact List.getElem_mem hi
  · rw [if_neg hi, if_neg hi]

/-! ### Frame lemmas: the numbering fold preserves vol order and c2f shape -/

theorem addFace_frame (t : Tree) (DIR : ℕ) (ns : NumState) (count : ℤ)
    (p : List ℤ) (positive : Bool) :
    (t.addFace DIR ns count p positive).1.c2f = ns.c2f ∧
      (t.addFace DIR ns count p positive).1.vol = ns.vol := by
  unfold Tree.addFace
  simp only []
  split_ifs <;> exact ⟨rfl, rfl⟩

theorem putCount_frame (ns : NumState) (DIR : ℕ) (c : ℤ) :
    (Tree.putCount ns DIR c).c2f = ns.c2f ∧
      (Tree.putCount ns DIR c).vol = ns.vol := by
  unfold Tree.putCount
  split_ifs <;> exact ⟨rfl, rfl⟩

theorem addHanging_frame (ns : NumState) (DIR : ℕ) (ids : List ℤ) :
    (Tree.addHanging ns DIR ids).c2f = ns.c2f ∧
      (Tree.addHanging ns DIR ids).vol = ns.vol := by
  unfold Tree.addHanging
  split_ifs <;> exact ⟨rfl, rfl⟩

theorem gc2f_len (dim : ℕ) (mm : List (ℤ × List (List ℤ))) (ind : ℤ)
    (h : ∀ e ∈ mm, e.2.length = 2 * dim) :
    ∀ e ∈ NumState.gc2f dim mm ind, e.2.length = 2 * dim := by
  intro e he
  unfold NumState.gc2f at he
  split at he
  · exact h e he
  · rcases List.mem_append.mp he with h1 | h2
    · exact h e h1
    · rw [List.mem_singleton] at h2
      subst h2
      simp

theorem c2fApp_len (dim : ℕ) (mm : List (ℤ × List (List ℤ))) (ind : ℤ)
    (slot : ℕ) (vs : List ℤ)
    (h : ∀ e ∈ mm, e.2.length = 2 * dim) :
    ∀ e ∈ NumState.c2fApp dim mm ind slot vs, e.2.length = 2 * dim := by
  intro e he
  unfold NumState.c2fApp at he
  rw [List.mem_map] at he
  obtain ⟨e0, he0, rfl⟩ := he
  have h0 := gc2f_len dim mm ind h e0 he0
  split_ifs
  · simpa [List.length_set] using h0
  · exact h0

theorem processCellNeg_frame (t : Tree) (fuel : ℕ) (ind : ℤ) (DIR : ℕ)
    (ns ns' : NumState) (h : t.processCellNeg fuel ind DIR ns = some ns')
    (hinv : ∀ e ∈ ns.c2f, e.2.length = 2 * t.dim) :
    ns'.vol = ns.vol ∧ ∀ e ∈ ns'.c2f, e.2.length = 2 * t.dim := by
  unfold Tree.processCellNeg at h
  simp only [] at h
  cases hg : t.getNextCell fuel (t.pointer ind) DIR false with
  | none => rw [hg, opt_none_bind] at h; cases h
  | some negR =>
    rw [hg, opt_some_bind] at h
    cases negR with
    | none =>
      simp only [] at h
      rcases haf : t.addFace DIR ns (ns.count DIR) (t.pointer ind) false
        with ⟨ns1, c⟩
      rw [haf] at h
      simp only [Option.pure_def, Option.some.injEq] at h
      subst h
      obtain ⟨hc2f, hvol⟩ : ns1.c2f = ns.c2f ∧ ns1.vol = ns.vol := by
        have hfr := addFace_frame t DIR ns (ns.count DIR) (t.pointer ind) false
        rw [haf] at hfr
        exact hfr
      refine ⟨?_, ?_⟩
      · rw [(putCount_frame _ DIR c).2]
        exact hvol
      · intro e he
        rw [(putCount_frame _ DIR c).1] at he
        have he2 : e ∈ NumState.c2fApp t.dim ns.c2f ind (2 * DIR) [c] := by
          rw [← hc2f]
          exact he
        exact c2fApp_len t.dim ns.c2f ind (2 * DIR) [c] hinv e he2
    | ind n =>
      simp only [Option.pure_def, Option.some.injEq] at h
      subst h
      exact ⟨rfl, hinv⟩
    | list l =>
      simp only [Option.pure_def, Option.some.injEq] at h
      subst h
      exact ⟨rfl, hinv⟩

theorem processCellPos_frame (t : Tree) (fuel : ℕ) (ind : ℤ) (DIR : ℕ)
    (ns ns' : NumState) (h : t.processCellPos fuel ind DIR ns = some ns')
    (hinv : ∀ e ∈ ns.c2f, e.2.length = 2 * t.dim) :
    ns'.vol = ns.vol ∧ ∀ e ∈ ns'.c2f, e.2.length = 2 * t.dim := by
  unfold Tree.processCellPos at h
  simp only [] at h
  cases hg : t.getNextCell fuel (t.pointer ind) DIR true with
  | none => rw [hg, opt_none_bind] at h; cases h
  | some nc =>
    rw [hg, opt_some_bind] at h
    cases nc with
    | none =>
      simp only [] at h
      rcases haf : t.addFace DIR ns (ns.count DIR) (t.pointer ind) true
        with ⟨ns1, c⟩
      rw [haf] at h
      simp only [Option.pure_def, Option.some.injEq] at h
      subst h
      obtain ⟨hc2f, hvol⟩ : ns1.c2f = ns.c2f ∧ ns1.vol = ns.vol := by
        have hfr := addFace_frame t DIR ns (ns.count DIR) (t.pointer ind) true
        rw [haf] at hfr
        exact hfr
      refine ⟨?_, ?_⟩
      · rw [(putCount_frame _ DIR c).2]
        exact hvol
      · intro e he
        rw [(putCount_frame _ DIR c).1] at he
        have he2 : e ∈ NumState.c2fApp t.dim ns.c2f ind (2 * DIR + 1) [c] := by
          rw [← hc2f]
          exact he
        exact c2fApp_len t.dim ns.c2f ind (2 * DIR + 1) [c] hinv e he2
    | ind n =>
      simp only [] at h
      split_ifs at h
      · rcases haf : t.addFace DIR ns (ns.count DIR) (t.pointer ind) true
          with ⟨ns1, c⟩
        rw [haf] at h
        simp only [Option.pure_def, Option.some.injEq] at h
        subst h
        obtain ⟨hc2f, hvol⟩ : ns1.c2f = ns.c2f ∧ ns1.vol = ns.vol := by
          have hfr := addFace_frame t DIR ns (ns.count DIR) (t.pointer ind) true
          rw [haf] at hfr
          exact hfr
        refine ⟨?_, ?_⟩
        · rw [(putCount_frame _ DIR c).2]
          exact hvol
        · intro e he
          rw [(putCount_frame _ DIR c).1] at he
          rw [hc2f] at he
          exact c2fApp_len t.dim _ n (2 * DIR) [c]
            (c2fApp_len t.dim ns.c2f ind (2 * DIR + 1) [c] hinv) e he
      · rcases haf : t.addFace DIR ns (ns.count DIR) (t.pointer ind) true
          with ⟨ns1, c⟩
        rw [haf] at h
        simp only [Option.pure_def, Option.some.injEq] at h
        subst h
        obtain ⟨hc2f, hvol⟩ : ns1.c2f = ns.c2f ∧ ns1.vol = ns.vol := by
          have hfr := addFace_frame t DIR ns (ns.count DIR) (t.pointer ind) true
          rw [haf] at hfr
          exact hfr
        refine ⟨?_, ?_⟩
        · rw [(addHanging_frame _ DIR [c]).2, (putCount_frame _ DIR c).2]
          exact hvol
        · intro e he
          rw [(addHanging_frame _ DIR [c]).1, (putCount_frame _ DIR c).1] at he
          rw [hc2f] at he
          exact c2fApp_len t.dim _ n (2 * DIR) [c]
            (c2fApp_len t.dim ns.c2f ind (2 * DIR + 1) [c] hinv) e he
    | list l =>
      simp only [] at h
      match l with
      | [] => cases h
      | NextCell.none :: _ => cases h
      | NextCell.list _ :: _ => cases h
      | [NextCell.ind n0] => cases h
      | NextCell.ind n0 :: NextCell.none :: _ => cases h
      | NextCell.ind n0 :: NextCell.list _ :: _ => cases h
      | NextCell.ind n0 :: NextCell.ind n1 :: rest =>
        simp only [] at h
        rcases haf1 : t.addFace DIR ns (ns.count DIR) (t.pointer n0) false
          with ⟨ns1, c1⟩
        rw [haf1] at h
        simp only [] at h
        rcases haf2 : t.addFace DIR
            { ns1 with c2f := NumState.c2fApp t.dim ns1.c2f n0 (2 * DIR) [c1] }
            c1 (t.pointer n1) false
          with ⟨ns2, c2⟩
        rw [haf2] at h
        simp only [Option.pure_def, Option.some.injEq] at h
        subst h
        obtain ⟨hc1, hv1⟩ : ns1.c2f = ns.c2f ∧ ns1.vol = ns.vol := by
          have hfr := addFace_frame t DIR ns (ns.count DIR) (t.pointer n0) false
          rw [haf1] at hfr
          exact hfr
        obtain ⟨hc2, hv2⟩ : ns2.c2f = NumState.c2fApp t.dim ns1.c2f n0 (2 * DIR) [c1] ∧
            ns2.vol = ns1.vol := by
          have hfr := addFace_frame t DIR
            { ns1 with c2f := NumState.c2fApp t.dim ns1.c2f n0 (2 * DIR) [c1] }
            c1 (t.pointer n1) false
          rw [haf2] at hfr
          exact hfr
        refine ⟨?_, ?_⟩
        · rw [(addHanging_frame _ DIR [c2 - 1, c2]).2, (putCount_frame _ DIR c2).2,
            hv2, hv1]
        · intro e he
          rw [(addHanging_frame _ DIR [c2 - 1, c2]).1,
            (putCount_frame _ DIR c2).1] at he
          have hbase : ∀ e2 ∈ ns2.c2f, e2.2.length = 2 * t.dim := by
            rw [hc2, hc1]
            exact c2fApp_len t.dim ns.c2f n0 (2 * DIR) [c1] hinv
          exact c2fApp_len t.dim _ ind (2 * DIR + 1) [c2 - 1, c2]
            (c2fApp_len t.dim ns2.c2f n1 (2 * DIR) [c2] hbase) e he

theorem processCell_frame (t : Tree) (fuel : ℕ) (ind : ℤ) (DIR : ℕ)
    (ns ns' : NumState) (h : t.processCell fuel ind DIR ns = some ns')
    (hinv : ∀ e ∈ ns.c2f, e.2.length = 2 * t.dim) :
    ns'.vol = ns.vol ∧ ∀ e ∈ ns'.c2f, e.2.length = 2 * t.dim := by
  unfold Tree.processCell at h
  cases hn : t.processCellNeg fuel ind DIR ns with
  | none => rw [hn, opt_none_bind] at h; cases h
  | some ns1 =>
    rw [hn, opt_some_bind] at h
    obtain ⟨hv1, hi1⟩ := processCellNeg_frame t fuel ind DIR ns ns1 hn hinv
    obtain ⟨hv2, hi2⟩ := processCellPos_frame t fuel ind DIR ns1 ns' h hi1
    exact ⟨by rw [hv2, hv1], hi2⟩

theorem numberBody_frame (t : Tree) (fuel : ℕ) (ind : ℤ) (ns b : NumState)
    (h : (do
        let ns := { ns with vol := ns.vol ++ [(t.cellH (t.pointer ind)).prod] }
        let ns ← t.processCell fuel ind 0 ns
        let ns ← t.processCell fuel ind 1 ns
        if t.dim = 3 then t.processCell fuel ind 2 ns else pure ns) = some b)
    (hinv : ∀ e ∈ ns.c2f, e.2.length = 2 * t.dim) :
    b.vol = ns.vol ++ [(t.cellH (t.pointer ind)).prod] ∧
      ∀ e ∈ b.c2f, e.2.length = 2 * t.dim := by
  simp only [] at h
  set ns0 := { ns with vol := ns.vol ++ [(t.cellH (t.pointer ind)).prod] }
    with hns0
  cases h0 : t.processCell fuel ind 0 ns0 with
  | none => rw [h0, opt_none_bind] at h; cases h
  | some ns1 =>
    rw [h0, opt_some_bind] at h
    cases h1 : t.processCell fuel ind 1 ns1 with
    | none => rw [h1, opt_none_bind] at h; cases h
    | some ns2 =>
      rw [h1, opt_some_bind] at h
      obtain ⟨hv0, hi0⟩ := processCell_frame t fuel ind 0 ns0 ns1 h0 hinv
      obtain ⟨hv1, hi1⟩ := processCell_frame t fuel ind 1 ns1 ns2 h1 hi0
      by_cases hdim : t.dim = 3
      · rw [if_pos hdim] at h
        obtain ⟨hv2, hi2⟩ := processCell_frame t fuel ind 2 ns2 b h hi1
        refine ⟨?_, hi2⟩
        rw [hv2, hv1, hv0]
      · rw [if_neg hdim] at h
        simp only [Option.pure_def, Option.some.injEq] at h
        subst h
        refine ⟨?_, hi1⟩
        rw [hv1, hv0]

theorem foldlM_frame {α : Type} (dimv : ℕ) (f : NumState → α → Option NumState)
    (g : α → ℚ)
    (hstep : ∀ ns a b, f ns a = some b →
      (∀ e ∈ ns.c2f, e.2.length = 2 * dimv) →
      b.vol = ns.vol ++ [g a] ∧ ∀ e ∈ b.c2f, e.2.length = 2 * dimv) :
    ∀ (l : List α) (ns0 ns1 : NumState), List.foldlM f ns0 l = some ns1 →
      (∀ e ∈ ns0.c2f, e.2.length = 2 * dimv) →
      ns1.vol = ns0.vol ++ l.map g ∧
        ∀ e ∈ ns1.c2f, e.2.length = 2 * dimv := by
  intro l
  induction l with
  | nil =>
    intro ns0 ns1 h hinv
    simp only [List.foldlM_nil, Option.pure_def, Option.some.injEq] at h
    subst h
    simpa using hinv
  | cons a rest ih =>
    intro ns0 ns1 h hinv
    rw [List.foldlM_cons] at h
    cases hb : f ns0 a with
    | none => rw [hb, opt_none_bind] at h; cases h
    | some b =>
      rw [hb, opt_some_bind] at h
      obtain ⟨hv, hi⟩ := hstep ns0 a b hb hinv
      obtain ⟨hv2, hi2⟩ := ih b ns1 h hi
      refine ⟨?_, hi2⟩
      rw [hv2, hv, List.map_cons]
      simp

theorem numberOn_fields (t : Tree) (fuel : ℕ) (inds : List ℤ)
    (m : Tree.NumberOut) (h : t.numberOn fuel inds = some m) :
    m.sortedInds = inds ∧
      m.vol = inds.map (fun ind => (t.cellH (t.pointer ind)).prod) ∧
      ∀ e ∈ m.c2f, e.2.length = 2 * t.dim := by
  unfold Tree.numberOn at h
  cases hf : List.foldlM
      (fun (ns : NumState) ind => do
        let ns := { ns with vol := ns.vol ++ [(t.cellH (t.pointer ind)).prod] }
        let ns ← t.processCell fuel ind 0 ns
        let ns ← t.processCell fuel ind 1 ns
        if t.dim = 3 then t.processCell fuel ind 2 ns else pure ns)
      ({} : NumState) inds with
  | none => rw [hf, opt_none_bind] at h; cases h
  | some ns =>
    rw [hf, opt_some_bind] at h
    simp only [Option.pure_def, Option.some.injEq] at h
    subst h
    obtain ⟨hv, hi⟩ := foldlM_frame t.dim _
      (fun ind => (t.cellH (t.pointer ind)).prod)
      (fun ns a b hb hinv => numberBody_frame t fuel a ns b hb hinv)
      inds {} ns hf (by intro e he; cases he)
    exact ⟨rfl, by simpa using hv, hi⟩

theorem c2fGet_length (dim : ℕ) (mm : List (ℤ × List (List ℤ))) (ind : ℤ)
    (hinv : ∀ e ∈ mm, e.2.length = 2 * dim) :
    (NumState.c2fGet dim mm ind).length = 2 * dim := by
  unfold NumState.c2fGet
  cases hff : mm.find? (fun e => e.1 = ind) with
  | none => simp
  | some e =>
    simp only [Option.map_some', Option.getD_some]
    exact hinv e (List.mem_of_find?_eq_some hff)

set_option maxHeartbeats 1000000 in
/-- C3: for a 2-D or 3-D mesh whose numbering succeeds, `faceDiv` is exactly
`diag(1/vol) · D · diag(area)` of shape `(nC, nF)`, where the raw incidence
`D` has, for row `i` and each of the `2d` directions in order
`(-x,+x,-y,+y[,-z,+z])`, an entry of sign `(-1,+1,-1,+1,-1,+1)` at column
`offset + f` for every face id `f` in `c2f[cell][dir]`, with axis offsets
`(0, 0, nFx, nFx, nFx+nFy, nFx+nFy)` — the spec-modelled `specFaceDiv`. -/
theorem claim3_faceDiv_spec (t : Tree) (fuel : ℕ) (m : Tree.NumberOut)
    (hd : t.dim = 2 ∨ t.dim = 3) (hnum : t.number fuel = some m) :
    t.faceDiv fuel = some (specFaceDiv t.dim m) ∧
      (specFaceDiv t.dim m).rows = m.nC ∧
      (specFaceDiv t.dim m).cols = m.nF := by
  obtain ⟨hsi, hv, hi⟩ := numberOn_fields t fuel _ m hnum
  have hlen : ∀ ind ∈ m.sortedInds,
      (NumState.c2fGet t.dim m.c2f ind).length = 2 * t.dim :=
    fun ind _ => c2fGet_length t.dim m.c2f ind hi
  have hsp : faceDivOf t.dim m = specFaceDiv t.dim m := by
    unfold faceDivOf specFaceDiv
    have hent : (fun (i : ℕ) (j : ℤ) =>
        (1 / volAt m i) * ((Dmat t.dim m i j : ℤ) : ℚ) * areaAt m j) =
        (fun (i : ℕ) (j : ℤ) =>
        (1 / volAt m i) * ((specD t.dim m i j : ℤ) : ℚ) * areaAt m j) := by
      funext i j
      rw [Dmat_eq_specD t.dim m i j hd hlen]
    rw [hent]
  refine ⟨?_, rfl, rfl⟩
  unfold Tree.faceDiv
  rw [hnum, Option.map_some', hsp]

set_option maxRecDepth 100000 in
/-- Witness for C3 at the refined 2-D scenario mesh: `faceDiv` of `w2r`
coincides with the spec-modelled assembly on its numbering output `w2rm`,
with shape `(nC, nF) = (4, 12)`. -/
theorem claim3_witness :
    (w2r.dim = 2 ∨ w2r.dim = 3) ∧
      (w2r.faceDiv 20 = some (specFaceDiv w2r.dim w2rm) ∧
        (specFaceDiv w2r.dim w2rm).rows = w2rm.nC ∧
        (specFaceDiv w2r.dim w2rm).cols = w2rm.nF) :=
  ⟨Or.inl (by decide),
    claim3_faceDiv_spec w2r 20 w2rm (Or.inl (by decide))
      (by set_option maxRecDepth 100000 in rfl)⟩

set_option maxHeartbeats 1000000 in
/-- C2: for every mesh reachable from `Tree(h, L)` (with `L ≤ 20`, axis
arrays of length `2^L` and dimension 2 or 3) by any sequence of valid
refinement calls, the entries of the `vol` array produced by `number` sum to
the product over the axes of the total spacing: the cell volumes partition
the domain. -/
theorem claim2_volume_partition (h : List (List ℚ)) (levels : ℕ) (t : Tree)
    (fuel : ℕ) (m : Tree.NumberOut)
    (hdim : h.length = 2 ∨ h.length = 3) (hL20 : levels ≤ 20)
    (hlen : ∀ hk ∈ h, hk.length = 2 ^ levels)
    (hreach : Tree.Reachable h levels t)
    (hnum : t.number fuel = some m) :
    m.vol.sum = (h.map List.sum).prod := by
  obtain ⟨hinv, hh, hl⟩ := reachable_inv h levels t hdim hL20 hreach
  obtain ⟨hsi, hv, _⟩ := numberOn_fields t fuel
    (List.insertionSort (· ≤ ·) t.treeInds) m hnum
  rw [hv]
  have hperm := (List.perm_insertionSort (· ≤ ·) t.treeInds).map
    (fun ind => (t.cellH (t.pointer ind)).prod)
  rw [hperm.sum_eq]
  rw [show h = t.h from hh.symm]
  apply inv_vol_sum t hinv
  rw [hh, hl]
  exact hlen

set_option maxRecDepth 400000 in
/-- Witness for C2 at scenario S1: in `Tree([4,4], 2)` refined once
everywhere by `refine(lambda xc: 1)`, the four cell volumes sum to
`(1/4+1/4+1/4+1/4) * (1/4+1/4+1/4+1/4) = 1`. -/
theorem claim2_witness :
    Tree.Reachable [qh4, qh4] 2 w2r ∧
      w2r.number 20 = some w2rm ∧
      w2rm.vol.sum = ([qh4, qh4].map List.sum).prod := by
  have hreach : Tree.Reachable [qh4, qh4] 2 w2r :=
    Tree.Reachable.stepRefine w2 w2r 5 (fun _ => 1) true Option.none
      (((w2.refine 5 (fun _ => 1) true Option.none).map Prod.snd).getD [])
      Tree.Reachable.init (by rfl)
  refine ⟨hreach, by rfl, ?_⟩
  exact claim2_volume_partition [qh4, qh4] 2 w2r 20 w2rm (Or.inl rfl)
    (by norm_num) (by decide) hreach (by rfl)


/-! ## Claim 5: cache invalidation on mutation -/

/-- C5 amended: a mutation through `_refineCell` on a clean object sets the
dirty bit and deletes only the `_gridCC` and `_gridFx` attributes, so the
next access to `vol`, `area`, `gridFx` or `gridCC` recomputes from the
post-mutation cell set, while `gridFy` and `faceDiv` keep their pre-mutation
cached attribute values and return them unchanged. -/
theorem claim5_amended_cache_invalidation (c : CTree) (p : List ℤ) (c' : CTree)
    (added : List ℤ) (fuel : ℕ) (hclean : c.dirty = false)
    (h : c.refineCell p = some (c', added)) :
    c'.dirty = true ∧ c'.aGridCC = Option.none ∧ c'.aGridFx = Option.none ∧
      (c'.volGet fuel).map Prod.fst =
        (c'.core.number fuel).map Tree.NumberOut.vol ∧
      (c'.areaGet fuel).map Prod.fst =
        (c'.core.number fuel).map Tree.NumberOut.area ∧
      (c'.gridFxGet fuel).map Prod.fst =
        (c'.core.number fuel).map Tree.NumberOut.gridFx ∧
      c'.gridCCGet.1 =
        c'.core.gridCCRows (List.insertionSort (· ≤ ·) c'.core.treeInds) ∧
      c'.aGridFy = c.aGridFy ∧ c'.aFaceDiv = c.aFaceDiv ∧
      (∀ g, c.aGridFy = some g → c'.gridFyGet fuel = some (g, c')) ∧
      (∀ mat, c.aFaceDiv = some mat → c'.faceDivGet fuel = some (mat, c')) := by
  unfold CTree.refineCell CTree.structureChange at h
  rw [hclean] at h
  simp only [Bool.false_eq_true, if_false] at h
  rcases hr : Tree.refineCell c.core p with _ | r
  · rw [hr] at h; simp at h
  · rw [hr] at h
    simp only [Option.map_some'] at h
    injection h with h1
    injection h1 with hc hadd
    subst hc
    subst hadd
    refine ⟨rfl, rfl, rfl, ?_, ?_, ?_, ?_, rfl, rfl, ?_, ?_⟩
    · unfold CTree.volGet CTree.number CTree.sortedIndsGet Tree.number
      simp only [Option.map_map]
      cases Tree.numberOn r.1 fuel (List.insertionSort (· ≤ ·) r.1.treeInds) <;> rfl
    · unfold CTree.areaGet CTree.number CTree.sortedIndsGet Tree.number
      simp only [Option.map_map]
      cases Tree.numberOn r.1 fuel (List.insertionSort (· ≤ ·) r.1.treeInds) <;> rfl
    · unfold CTree.gridFxGet CTree.number CTree.sortedIndsGet Tree.number
      simp only [Option.map_map]
      cases Tree.numberOn r.1 fuel (List.insertionSort (· ≤ ·) r.1.treeInds) <;> rfl
    · rfl
    · intro g hg
      unfold CTree.gridFyGet
      simp only [hg]
    · intro mat hmat
      unfold CTree.faceDivGet
      simp only [hmat]

/-- Witness for the C5 amended theorem: the mutation `_refineCell([0,0,0])`
on the clean `Tree([2,2],1)` object `c5b` — afterwards `vol`, `area`,
`gridFx` and `gridCC` recompute from the four post-mutation cells while
`gridFy` and `faceDiv` keep the attribute values cached before the
mutation. -/
theorem claim5_amended_witness :
    c5c.dirty = true ∧ c5c.aGridCC = Option.none ∧ c5c.aGridFx = Option.none ∧
      (c5c.volGet 10).map Prod.fst =
        (c5c.core.number 10).map Tree.NumberOut.vol ∧
      (c5c.areaGet 10).map Prod.fst =
        (c5c.core.number 10).map Tree.NumberOut.area ∧
      (c5c.gridFxGet 10).map Prod.fst =
        (c5c.core.number 10).map Tree.NumberOut.gridFx ∧
      c5c.gridCCGet.1 =
        c5c.core.gridCCRows (List.insertionSort (· ≤ ·) c5c.core.treeInds) ∧
      c5c.aGridFy = c5b.aGridFy ∧ c5c.aFaceDiv = c5b.aFaceDiv ∧
      (∀ g, c5b.aGridFy = some g → c5c.gridFyGet 10 = some (g, c5c)) ∧
      (∀ mat, c5b.aFaceDiv = some mat → c5c.faceDivGet 10 = some (mat, c5c)) :=
  claim5_amended_cache_invalidation c5b [0, 0, 0] c5c c5add 10 (by rfl) (by rfl)

/-! ## Claim 8: the uniform 2-D scenario S1 -/

section RatEval

attribute [local semireducible] Rat.add Rat.mul Rat.inv Rat.sub Rat.ofScientific

set_option maxRecDepth 100000 in
/-- C5 counterexample: after the mutation `_refineCell([0,0,0])` on the
already-numbered `Tree([2,2],1)` object, the `gridFy` getter still returns
the two pre-mutation rows (the value `number` computed before the mutation,
since `_structureChange` does not delete `_gridFy`), not the six rows a
fresh numbering of the four post-mutation cells produces. -/
theorem claim5_counterexample :
    (c5c.gridFyGet 10).map Prod.fst =
        some [[1 / 2, 0], [1 / 2, 1]] ∧
      (c5c.gridFyGet 10).map Prod.fst =
        (c5b.core.number 10).map Tree.NumberOut.gridFy ∧
      (c5c.gridFyGet 10).map Prod.fst ≠
        (c5c.core.number 10).map Tree.NumberOut.gridFy :=
  ⟨by decide, by decide, by decide⟩

set_option maxRecDepth 100000 in
/-- C8: for the mesh `Tree([4,4], L=2)` after `refine` with the constant
predicate 1: exactly 4 live cells, all at level 1, with `nC=4`, `nFx=6`,
`nFy=6`, `nF=12`, every entry of `vol` equal to `0.25`, and empty
hanging-face sets for both axes. -/
theorem claim8_uniform_2d :
    Tree.init [.num 4, .num 4] 2 = some w2 ∧
      (w2.refine 5 (fun _ => 1) true Option.none).map Prod.fst = some w2r ∧
      w2r.treeInds.length = 4 ∧
      (∀ i ∈ w2r.treeInds, (w2r.pointer i).getLastD 0 = 1) ∧
      w2r.number 20 = some w2rm ∧
      w2rm.nC = 4 ∧ w2rm.nFx = 6 ∧ w2rm.nFy = 6 ∧ w2rm.nF = 12 ∧
      w2rm.vol = [1/4, 1/4, 1/4, 1/4] ∧
      w2rm.hangingFacesX = [] ∧ w2rm.hangingFacesY = [] := by
  refine ⟨by rfl, by rfl, by decide, by decide, by rfl, by rfl,
    by rfl, by rfl, by rfl, by decide, by rfl, by rfl⟩

end RatEval

end PointerTree
